import Mathlib

/-
Verification of the Kropki Sudoku CSP solver (src/backtracking.py).

The engine is embedded shallowly: the board and the two marker grids are
lists of lists of naturals, Python dictionaries become association lists
that keep insertion order (Python dicts preserve insertion order), and the
in-place mutation of the board / domain map / assignment performed by the
recursive search is made explicit by threading a state record through a
fueled recursion.  Machine integers of the source are plain naturals (all
arithmetic in the program stays far below any overflow); the single float
division in satisfy_constraint is modelled by exact rational division,
which coincides with Python float division on the 1..9 operand range the
program uses it on.
-/

namespace Kropki

abbrev Pos := Nat × Nat

abbrev Board := List (List Nat)

/-- Reading board[r][c]; out-of-range reads (never performed by the source
on well-formed inputs) default to 0. -/
def cell (b : Board) (r c : Nat) : Nat := (b.getD r []).getD c 0

/-- Writing board[r][c] = v (no-op out of range, like List.set). -/
def setCell (b : Board) (r c v : Nat) : Board :=
  b.set r ((b.getD r []).set c v)

/-! Association lists standing for Python dicts (insertion ordered). -/

def dlookup {β : Type} (k : Pos) : List (Pos × β) → Option β
  | [] => none
  | (k1, v) :: d => if k1 = k then some v else dlookup k d

def dlookupD {β : Type} (k : Pos) (d : List (Pos × β)) (dflt : β) : β :=
  (dlookup k d).getD dflt

def dcontains {β : Type} (k : Pos) (d : List (Pos × β)) : Bool :=
  (dlookup k d).isSome

/-- Python dict assignment d[k] = v: overwrite in place if the key exists,
append a fresh entry otherwise. -/
def dinsert {β : Type} (k : Pos) (v : β) : List (Pos × β) → List (Pos × β)
  | [] => [(k, v)]
  | (k1, v1) :: d => if k1 = k then (k, v) :: d else (k1, v1) :: dinsert k v d

/-- Python del d[k]: remove the (first, hence only) entry with key k. -/
def ddel {β : Type} (k : Pos) : List (Pos × β) → List (Pos × β)
  | [] => []
  | (k1, v1) :: d => if k1 = k then d else (k1, v1) :: ddel k d

def dkeys {β : Type} (d : List (Pos × β)) : List Pos := d.map Prod.fst

/-- Python list.remove: delete the first occurrence of v. -/
def removeFirst (v : Nat) : List Nat → List Nat
  | [] => []
  | x :: xs => if x = v then xs else x :: removeFirst v xs

/-- Python list.sort() on a list of naturals (ascending). -/
def sortAsc (l : List Nat) : List Nat := List.insertionSort (· ≤ ·) l

/-- Python min over a nonempty sequence of naturals (0 on the empty list,
which the source never reaches: it would raise ValueError there). -/
def pyMin : List Nat → Nat
  | [] => 0
  | x :: xs => xs.foldl Nat.min x

/-- Python max(list, key=...): the first element attaining the maximal key. -/
def pyMaxBy (key : Pos → Nat) : List Pos → Option Pos
  | [] => none
  | x :: xs => some (xs.foldl (fun best y => if key best < key y then y else best) x)

/-! The CSP engine, function by function from src/backtracking.py. -/

/-- CSP.set_variables: the row-major list of cells whose value is 0. -/
def set_variables (rows cols : Nat) (board : Board) : List Pos :=
  (List.range rows).flatMap fun i =>
    ((List.range cols).filter fun j => cell board i j == 0).map fun j => (i, j)

/-- CSP.set_constraints, body of the loop: the constraint dict of one
variable.  H and V are the horizontal and vertical marker grids. -/
def constraintsFor (rows cols : Nat) (H V : Board) (p : Pos) : List (Pos × Nat) :=
  let curRow := p.1
  let curCol := p.2
  let d : List (Pos × Nat) := []
  let d := if 1 ≤ curCol ∧ cell H curRow (curCol - 1) ≠ 0 then
             dinsert (curRow, curCol - 1) (cell H curRow (curCol - 1)) d else d
  let d := if curCol < cols - 1 ∧ cell H curRow curCol ≠ 0 then
             dinsert (curRow, curCol + 1) (cell H curRow curCol) d else d
  let d := if 1 ≤ curRow ∧ cell V (curRow - 1) curCol ≠ 0 then
             dinsert (curRow - 1, curCol) (cell V (curRow - 1) curCol) d else d
  let d := if curRow < rows - 1 ∧ cell V curRow curCol ≠ 0 then
             dinsert (curRow + 1, curCol) (cell V curRow curCol) d else d
  let d := (List.range cols).foldl (fun d ic =>
             if ic ≠ curCol ∧ ¬ dcontains (curRow, ic) d then
               dinsert (curRow, ic) 3 d else d) d
  let d := (List.range rows).foldl (fun d ir =>
             if ir ≠ curRow ∧ ¬ dcontains (ir, curCol) d then
               dinsert (ir, curCol) 3 d else d) d
  let d := (List.range 3).foldl (fun d i =>
             (List.range 3).foldl (fun d j =>
               if curRow / 3 * 3 + i ≠ curRow ∧ curCol / 3 * 3 + j ≠ curCol ∧
                   ¬ dcontains (curRow / 3 * 3 + i, curCol / 3 * 3 + j) d then
                 dinsert (curRow / 3 * 3 + i, curCol / 3 * 3 + j) 3 d else d) d) d
  d

/-- CSP.set_constraints: one constraint dict per variable. -/
def set_constraints (rows cols : Nat) (H V : Board) (vars : List Pos) :
    List (Pos × List (Pos × Nat)) :=
  vars.foldl (fun cs p => dinsert p (constraintsFor rows cols H V p) cs) []

/-- CSP.satisfy_constraint.  The black-dot test max/min == 2 uses Python
float division; on the operand range the program uses (both operands in
1..9, the zero neighbor being caught by the first branch) float division is
exact, so it is modelled by rational division. -/
def satisfy_constraint (value neighborValue constraint : Nat) : Bool :=
  if neighborValue = 0 then true
  else match constraint with
    | 1 => decide (((neighborValue : Int) - (value : Int)).natAbs = 1)
    | 2 => decide (((max neighborValue value : Nat) : ℚ) / ((min neighborValue value : Nat) : ℚ) = 2)
    | 3 => decide (¬ neighborValue = value)
    | _ => true

/-- CSP.is_consistent: value must satisfy the constraint with every
neighbor recorded for var (an unassigned neighbor reads as 0 and passes). -/
def is_consistent (cs : List (Pos × List (Pos × Nat))) (board : Board)
    (var : Pos) (value : Nat) : Bool :=
  (dlookupD var cs []).all fun nc => satisfy_constraint value (cell board nc.1.1 nc.1.2) nc.2

/-- CSP.set_domain: for each variable the values of 1..9 consistent with
the current board. -/
def set_domain (cs : List (Pos × List (Pos × Nat))) (board : Board)
    (vars : List Pos) : List (Pos × List Nat) :=
  vars.foldl (fun ds var =>
    dinsert var ((List.range' 1 9).filter fun v => is_consistent cs board var v) ds) []

/-- The degree count used by CSP.select_unassigned_variable: the number of
neighbors of var not present in the assignment dict. -/
def pyDegree (cs : List (Pos × List (Pos × Nat))) (assignment : List (Pos × Nat))
    (v : Pos) : Nat :=
  ((dlookupD v cs []).filter fun nc => !dcontains nc.1 assignment).length

/-- CSP.select_unassigned_variable: minimum remaining values, ties broken
by the degree count, further ties by first position in the variable list.
Returns none exactly where Python would raise (min of an empty sequence). -/
def select_unassigned_variable (vars : List Pos) (domains : List (Pos × List Nat))
    (cs : List (Pos × List (Pos × Nat))) (assignment : List (Pos × Nat)) : Option Pos :=
  let unassigned := vars.filter fun v => !dcontains v assignment
  match unassigned with
  | [] => none
  | _ =>
    let mrvValue := pyMin (unassigned.map fun v => (dlookupD v domains []).length)
    let mrvVars := unassigned.filter fun v => (dlookupD v domains []).length == mrvValue
    if mrvVars.length = 1 then mrvVars.head?
    else pyMaxBy (pyDegree cs assignment) mrvVars

/-- CSP.order_domain_values. -/
def order_domain_values (domains : List (Pos × List Nat)) (var : Pos) : List Nat :=
  dlookupD var domains []

/-- CSP.prepare_inference: snapshot the domains of var's neighbors that
have a domain entry. -/
def prepare_inference (cs : List (Pos × List (Pos × Nat)))
    (domains : List (Pos × List Nat)) (var : Pos) : List (Pos × List Nat) :=
  (dlookupD var cs []).foldl (fun vd nc =>
    match dlookup nc.1 domains with
    | none => vd
    | some l => dinsert nc.1 l vd) []

/-- Loop body of CSP.inference over the neighbor list; returns the flag and
the (partially) pruned domains, stopping at the first emptied domain. -/
def inferenceGo (value : Nat) : List (Pos × Nat) → List (Pos × List Nat) →
    Bool × List (Pos × List Nat)
  | [], domains => (true, domains)
  | nc :: rest, domains =>
    match dlookup nc.1 domains with
    | none => inferenceGo value rest domains
    | some dl =>
      let toRemove := dl.filter fun w => !satisfy_constraint value w nc.2
      let newdl := toRemove.foldl (fun l w => removeFirst w l) dl
      let domains1 := dinsert nc.1 newdl domains
      if newdl.length = 0 then (false, domains1)
      else inferenceGo value rest domains1

/-- CSP.inference: forward checking after assigning value to var. -/
def inference (cs : List (Pos × List (Pos × Nat))) (var : Pos) (value : Nat)
    (domains : List (Pos × List Nat)) : Bool × List (Pos × List Nat) :=
  inferenceGo value (dlookupD var cs []) domains

/-- CSP.backtrack_inference: for each neighbor of var with a domain entry,
re-append the snapshot values that are missing and sort ascending. -/
def backtrack_inference (cs : List (Pos × List (Pos × Nat))) (var : Pos)
    (varDomains : List (Pos × List Nat)) (domains : List (Pos × List Nat)) :
    List (Pos × List Nat) :=
  (dlookupD var cs []).foldl (fun domains nc =>
    match dlookup nc.1 domains with
    | none => domains
    | some cur =>
      let backup := dlookupD nc.1 varDomains []
      let restored := backup.foldl (fun c w => if w ∈ c then c else c ++ [w]) cur
      dinsert nc.1 (sortAsc restored) domains) domains

/-- The mutable state CSP.backtrack operates on: the board, the domain map
and the assignment dict. -/
structure SState where
  board : Board
  domains : List (Pos × List Nat)
  assignment : List (Pos × Nat)

/-- Value loop of CSP.backtrack (the for over order_domain_values), with
the recursive call abstracted as recur.  A result of none signals that a
recursive call ran out of fuel (the model artifact; backtrackF_total shows
it never happens with enough fuel); some (none, st) is the Python return
None with final mutable state st, and some (some b, st) a solved board. -/
def tryValuesWith (recur : SState → Option (Option Board × SState))
    (cs : List (Pos × List (Pos × Nat))) (var : Pos) :
    List Nat → SState → Option (Option Board × SState)
  | [], st => some (none, st)
  | value :: rest, st =>
    if is_consistent cs st.board var value then
      let board1 := setCell st.board var.1 var.2 value
      let asg1 := dinsert var value st.assignment
      let varDomains := prepare_inference cs st.domains var
      let infRes := inference cs var value st.domains
      if infRes.1 then
        match recur ⟨board1, infRes.2, asg1⟩ with
        | none => none
        | some (some sol, st1) => some (some sol, st1)
        | some (none, st1) =>
          tryValuesWith recur cs var rest
            ⟨setCell st1.board var.1 var.2 0,
             backtrack_inference cs var varDomains st1.domains,
             ddel var st1.assignment⟩
      else
        tryValuesWith recur cs var rest
          ⟨setCell board1 var.1 var.2 0,
           backtrack_inference cs var varDomains infRes.2,
           ddel var asg1⟩
    else tryValuesWith recur cs var rest st

/-- CSP.backtrack, made total with a fuel argument bounding the recursion
depth (backtrackF_total proves variables.length + 1 fuel always suffices). -/
def backtrackF (vars : List Pos) (cs : List (Pos × List (Pos × Nat))) :
    Nat → SState → Option (Option Board × SState)
  | 0, _ => none
  | fuel + 1, st =>
    if vars.length = st.assignment.length then some (some st.board, st)
    else
      match select_unassigned_variable vars st.domains cs st.assignment with
      | none => none
      | some var =>
        tryValuesWith (backtrackF vars cs fuel) cs var
          (order_domain_values st.domains var) st

/-- The solving pipeline of CSP.solve after the file is read: set_variables,
set_constraints, set_domain, backtrack on an empty assignment.  The outer
Option is the fuel artifact (always some, by backtrackF_total); the inner
Option is the engine's result: some solved board or none (no solution). -/
def solve (rows cols : Nat) (board H V : Board) : Option (Option Board) :=
  let vars := set_variables rows cols board
  let cs := set_constraints rows cols H V vars
  let domains := set_domain cs board vars
  (backtrackF vars cs (vars.length + 1) ⟨board, domains, []⟩).map Prod.fst

/-! Specification-side vocabulary for the 9 by 9 grid. -/

/-- A position inside the 9 by 9 grid. -/
def inGrid (p : Pos) : Prop := p.1 < 9 ∧ p.2 < 9

instance (p : Pos) : Decidable (inGrid p) := by unfold inGrid; infer_instance

/-- Two positions lie in the same 3 by 3 box. -/
def sameBox (p q : Pos) : Prop := p.1 / 3 = q.1 / 3 ∧ p.2 / 3 = q.2 / 3

instance (p q : Pos) : Decidable (sameBox p q) := by unfold sameBox; infer_instance

/-- Two distinct in-grid positions sharing a row, a column, or a box. -/
def peers (p q : Pos) : Prop :=
  inGrid p ∧ inGrid q ∧ p ≠ q ∧ (p.1 = q.1 ∨ p.2 = q.2 ∨ sameBox p q)

instance (p q : Pos) : Decidable (peers p q) := by unfold peers; infer_instance

/-- Two orthogonally adjacent in-grid positions. -/
def orthAdj (p q : Pos) : Prop :=
  inGrid p ∧ inGrid q ∧
    ((p.1 = q.1 ∧ (p.2 + 1 = q.2 ∨ q.2 + 1 = p.2)) ∨
     (p.2 = q.2 ∧ (p.1 + 1 = q.1 ∨ q.1 + 1 = p.1)))

instance (p q : Pos) : Decidable (orthAdj p q) := by unfold orthAdj; infer_instance

/-- The dot marker recorded between two orthogonally adjacent cells
(0 when q is not orthogonally adjacent to p). -/
def adjMarker (H V : Board) (p q : Pos) : Nat :=
  if p.1 = q.1 ∧ q.2 + 1 = p.2 then cell H p.1 q.2
  else if p.1 = q.1 ∧ p.2 + 1 = q.2 then cell H p.1 p.2
  else if p.2 = q.2 ∧ q.1 + 1 = p.1 then cell V q.1 p.2
  else if p.2 = q.2 ∧ p.1 + 1 = q.1 then cell V p.1 p.2
  else 0

/-- A marker grid is well formed when every read entry is 0, 1 or 2. -/
def MarkerWF (M : Board) : Prop := ∀ r < 9, ∀ c < 9, cell M r c ≤ 2

instance (M : Board) : Decidable (MarkerWF M) := by unfold MarkerWF; infer_instance

/-- A 9 by 9 board shape. -/
def BoardDims (b : Board) : Prop := b.length = 9 ∧ ∀ row ∈ b, row.length = 9

instance (b : Board) : Decidable (BoardDims b) := by unfold BoardDims; infer_instance

/-- All board entries at most 9. -/
def BoardLE9 (b : Board) : Prop := ∀ r < 9, ∀ c < 9, cell b r c ≤ 9

instance (b : Board) : Decidable (BoardLE9 b) := by unfold BoardLE9; infer_instance

/-- The 81 grid positions in row-major order. -/
def gridPositions : List Pos :=
  (List.range 9).flatMap fun r => (List.range 9).map fun c => (r, c)

/-- No two equal nonzero cells share a row, column or box. -/
def ValidCells (b : Board) : Prop :=
  ∀ p ∈ gridPositions, ∀ q ∈ gridPositions, peers p q →
    cell b p.1 p.2 ≠ 0 → cell b q.1 q.2 ≠ 0 → cell b p.1 p.2 ≠ cell b q.1 q.2

instance (b : Board) : Decidable (ValidCells b) := by unfold ValidCells; infer_instance

/-- Every value stored in a domain map lies in 1..9. -/
def DomsLE9 (d : List (Pos × List Nat)) : Prop :=
  ∀ (p : Pos) (l : List Nat), dlookup p d = some l → ∀ v ∈ l, 1 ≤ v ∧ v ≤ 9

/-- The values of row r of a board. -/
def rowCells (b : Board) (r : Nat) : List Nat := (List.range 9).map fun c => cell b r c

/-- The values of column c of a board. -/
def colCells (b : Board) (c : Nat) : List Nat := (List.range 9).map fun r => cell b r c

/-- The values of box k (boxes numbered row major, k / 3 the band and
k % 3 the stack). -/
def boxCells (b : Board) (k : Nat) : List Nat :=
  (List.range 9).map fun t => cell b (k / 3 * 3 + t / 3) (k % 3 * 3 + t % 3)

/-- Modelled from the spec: the degree count the specification describes
for the tie break, counting only neighbors that are themselves unassigned
variables, so that pre-filled givens do not count.  Stated for comparison
with pyDegree, the count the code actually uses. -/
def specDegree (cs : List (Pos × List (Pos × Nat))) (vars : List Pos)
    (assignment : List (Pos × Nat)) (v : Pos) : Nat :=
  ((dlookupD v cs []).filter fun nc =>
    decide (nc.1 ∈ vars) && ! dcontains nc.1 assignment).length

/-! Basic lemmas about the dictionary operations. -/

theorem dlookup_dinsert {β : Type} (k q : Pos) (v : β) (d : List (Pos × β)) :
    dlookup q (dinsert k v d) = if k = q then some v else dlookup q d := by
  induction d with
  | nil => by_cases h : k = q <;> simp [dinsert, dlookup, h]
  | cons e d ih =>
    obtain ⟨k1, v1⟩ := e
    by_cases h1 : k1 = k
    · subst h1
      by_cases h2 : k1 = q <;> simp [dinsert, dlookup, h2]
    · by_cases h2 : k1 = q
      · subst h2
        have : ¬ k = k1 := fun h => h1 h.symm
        simp [dinsert, dlookup, h1, this]
      · simp [dinsert, dlookup, h1, h2, ih]

theorem dkeys_nil {β : Type} : dkeys ([] : List (Pos × β)) = [] := rfl

theorem dkeys_cons {β : Type} (k : Pos) (v : β) (d : List (Pos × β)) :
    dkeys ((k, v) :: d) = k :: dkeys d := rfl

theorem mem_dkeys_iff {β : Type} (q : Pos) (d : List (Pos × β)) :
    q ∈ dkeys d ↔ dlookup q d ≠ none := by
  induction d with
  | nil => simp [dkeys_nil, dlookup]
  | cons e d ih =>
    obtain ⟨k1, v1⟩ := e
    rw [dkeys_cons, List.mem_cons]
    by_cases h : k1 = q
    · subst h; simp [dlookup]
    · simp only [dlookup, if_neg h]
      constructor
      · rintro (hc | hc)
        · exact absurd hc.symm h
        · exact ih.mp hc
      · intro hc; exact Or.inr (ih.mpr hc)

theorem dlookup_mem {β : Type} {q : Pos} {v : β} {d : List (Pos × β)}
    (h : dlookup q d = some v) : (q, v) ∈ d := by
  induction d with
  | nil => simp [dlookup] at h
  | cons e d ih =>
    obtain ⟨k1, v1⟩ := e
    by_cases h1 : k1 = q
    · subst h1
      have hv : v1 = v := by simpa [dlookup] using h
      subst hv
      exact List.mem_cons_self _ _
    · simp only [dlookup, if_neg h1] at h
      exact List.mem_cons_of_mem _ (ih h)

theorem dkeys_dinsert_of_mem {β : Type} {k : Pos} (v : β) {d : List (Pos × β)}
    (h : k ∈ dkeys d) : dkeys (dinsert k v d) = dkeys d := by
  induction d with
  | nil => simp [dkeys_nil] at h
  | cons e d ih =>
    obtain ⟨k1, v1⟩ := e
    rw [dkeys_cons, List.mem_cons] at h
    by_cases h1 : k1 = k
    · subst h1; simp [dinsert, dkeys_cons]
    · have h2 : k ∈ dkeys d := by
        rcases h with h | h
        · exact absurd h.symm h1
        · exact h
      simp only [dinsert, if_neg h1, dkeys_cons, ih h2]

theorem dinsert_of_not_mem {β : Type} {k : Pos} (v : β) {d : List (Pos × β)}
    (h : k ∉ dkeys d) : dinsert k v d = d ++ [(k, v)] := by
  induction d with
  | nil => simp [dinsert]
  | cons e d ih =>
    obtain ⟨k1, v1⟩ := e
    rw [dkeys_cons, List.mem_cons] at h
    push_neg at h
    have hne : ¬ k1 = k := fun he => h.1 he.symm
    simp only [dinsert, if_neg hne, List.cons_append, ih h.2]

theorem dkeys_dinsert_nodup {β : Type} (k : Pos) (v : β) (d : List (Pos × β))
    (h : (dkeys d).Nodup) : (dkeys (dinsert k v d)).Nodup := by
  by_cases hm : k ∈ dkeys d
  · rw [dkeys_dinsert_of_mem v hm]; exact h
  · rw [dinsert_of_not_mem v hm]
    have heq : dkeys (d ++ [(k, v)]) = dkeys d ++ [k] := by
      unfold dkeys; rw [List.map_append]; rfl
    rw [heq]
    refine List.Nodup.append h (List.nodup_singleton k) ?_
    intro a ha hb
    rw [List.mem_singleton] at hb
    subst hb
    exact hm ha

theorem ddel_append_single {β : Type} {k : Pos} (v : β) {d : List (Pos × β)}
    (h : k ∉ dkeys d) : ddel k (d ++ [(k, v)]) = d := by
  induction d with
  | nil => simp [ddel]
  | cons e d ih =>
    obtain ⟨k1, v1⟩ := e
    rw [dkeys_cons, List.mem_cons] at h
    push_neg at h
    have hne : ¬ k1 = k := fun he => h.1 he.symm
    simp only [List.cons_append, ddel, if_neg hne, List.append_eq, ih h.2]

theorem dkeys_ddel_subset {β : Type} (k : Pos) (d : List (Pos × β)) :
    dkeys (ddel k d) ⊆ dkeys d := by
  induction d with
  | nil => simp [ddel]
  | cons e d ih =>
    obtain ⟨k1, v1⟩ := e
    by_cases h1 : k1 = k
    · rw [show ddel k ((k1, v1) :: d) = d by simp [ddel, h1], dkeys_cons]
      exact List.subset_cons_of_subset _ (List.Subset.refl _)
    · rw [show ddel k ((k1, v1) :: d) = (k1, v1) :: ddel k d by simp [ddel, h1],
        dkeys_cons, dkeys_cons]
      exact List.cons_subset_cons _ ih

theorem dkeys_ddel_nodup {β : Type} (k : Pos) (d : List (Pos × β))
    (h : (dkeys d).Nodup) : (dkeys (ddel k d)).Nodup := by
  induction d with
  | nil => simpa [ddel] using h
  | cons e d ih =>
    obtain ⟨k1, v1⟩ := e
    rw [dkeys_cons, List.nodup_cons] at h
    by_cases h1 : k1 = k
    · rw [show ddel k ((k1, v1) :: d) = d by simp [ddel, h1]]
      exact h.2
    · rw [show ddel k ((k1, v1) :: d) = (k1, v1) :: ddel k d by simp [ddel, h1],
        dkeys_cons, List.nodup_cons]
      exact ⟨fun hm => h.1 (dkeys_ddel_subset k d hm), ih h.2⟩

theorem not_mem_dkeys_ddel {β : Type} (k : Pos) (d : List (Pos × β))
    (h : (dkeys d).Nodup) : k ∉ dkeys (ddel k d) := by
  induction d with
  | nil => simp [ddel, dkeys_nil]
  | cons e d ih =>
    obtain ⟨k1, v1⟩ := e
    rw [dkeys_cons, List.nodup_cons] at h
    by_cases h1 : k1 = k
    · subst h1
      rw [show ddel k1 ((k1, v1) :: d) = d by simp [ddel]]
      exact h.1
    · rw [show ddel k ((k1, v1) :: d) = (k1, v1) :: ddel k d by simp [ddel, h1],
        dkeys_cons, List.mem_cons]
      push_neg
      exact ⟨fun hk => h1 hk.symm, ih h.2⟩

theorem length_dinsert_fresh {β : Type} {k : Pos} (v : β) {d : List (Pos × β)}
    (h : k ∉ dkeys d) : (dinsert k v d).length = d.length + 1 := by
  rw [dinsert_of_not_mem v h]; simp

theorem dkeys_length {β : Type} (d : List (Pos × β)) : (dkeys d).length = d.length := by
  simp [dkeys]

theorem dlookup_foldl_dinsert {β : Type} (f : Pos → β) (vars : List Pos)
    (init : List (Pos × β)) (p : Pos) :
    dlookup p (vars.foldl (fun d v => dinsert v (f v) d) init) =
      if p ∈ vars then some (f p) else dlookup p init := by
  induction vars generalizing init with
  | nil => simp
  | cons v vs ih =>
    simp only [List.foldl_cons, ih, dlookup_dinsert]
    by_cases hv : v = p
    · subst hv
      by_cases hm : v ∈ vs <;> simp [hm]
    · by_cases hm : p ∈ vs <;> simp [hm, hv, Ne.symm hv]

theorem nodup_subset_length_le {l1 l2 : List Pos} (h1 : l1.Nodup) (h2 : l1 ⊆ l2) :
    l1.length ≤ l2.length := by
  calc l1.length = l1.toFinset.card := (List.toFinset_card_of_nodup h1).symm
    _ ≤ l2.toFinset.card := Finset.card_le_card (fun x hx => by
        rw [List.mem_toFinset] at hx ⊢; exact h2 hx)
    _ ≤ l2.length := l2.toFinset_card_le

theorem dlookup_nil {β : Type} (q : Pos) : dlookup q ([] : List (Pos × β)) = none := rfl

theorem dcontains_eq_true_iff {β : Type} (k : Pos) (d : List (Pos × β)) :
    dcontains k d = true ↔ k ∈ dkeys d := by
  rw [mem_dkeys_iff]
  unfold dcontains
  cases h : dlookup k d <;> simp [h]

theorem dlookup_ite_dinsert {β : Type} (P : Prop) [Decidable P] (k q : Pos) (v : β)
    (d : List (Pos × β)) :
    dlookup q (if P then dinsert k v d else d) =
      if P ∧ k = q then some v else dlookup q d := by
  by_cases hP : P
  · rw [if_pos hP, dlookup_dinsert]
    by_cases hk : k = q
    · rw [if_pos hk, if_pos ⟨hP, hk⟩]
    · rw [if_neg hk, if_neg (fun h => hk h.2)]
  · rw [if_neg hP, if_neg (fun h => hP h.1)]

/-! Generic lemmas about the guarded-insert folds used by set_constraints:
each loop inserts kind-3 entries at fresh keys only. -/

theorem dlookup_foldl_guard_pres
    {cond : Nat → List (Pos × Nat) → Prop} [∀ x d, Decidable (cond x d)]
    {g : Nat → Pos} (hcond : ∀ x d, cond x d → g x ∉ dkeys d)
    (L : List Nat) (d : List (Pos × Nat)) (q : Pos) (v : Nat)
    (h : dlookup q d = some v) :
    dlookup q (L.foldl (fun d x => if cond x d then dinsert (g x) 3 d else d) d) = some v := by
  induction L generalizing d with
  | nil => exact h
  | cons x L ih =>
    rw [List.foldl_cons]
    by_cases hc : cond x d
    · rw [if_pos hc]
      refine ih _ ?_
      rw [dlookup_dinsert, if_neg ?_]
      · exact h
      · intro he
        exact hcond x d hc (he ▸ (mem_dkeys_iff q d).mpr (fun hn => by rw [hn] at h; cases h))
    · rw [if_neg hc]
      exact ih _ h

theorem dlookup_foldl_guard_none
    {cond : Nat → List (Pos × Nat) → Prop} [∀ x d, Decidable (cond x d)]
    {g : Nat → Pos} {P : Nat → Prop} [DecidablePred P]
    (hcond : ∀ x d, cond x d ↔ P x ∧ g x ∉ dkeys d)
    (L : List Nat) (d : List (Pos × Nat)) (q : Pos)
    (h : dlookup q d = none) :
    dlookup q (L.foldl (fun d x => if cond x d then dinsert (g x) 3 d else d) d) =
      if ∃ x ∈ L, P x ∧ g x = q then some 3 else none := by
  induction L generalizing d with
  | nil => simp [h]
  | cons x L ih =>
    rw [List.foldl_cons]
    by_cases hc : cond x d
    · rw [if_pos hc]
      by_cases hq : g x = q
      · have h3 : dlookup q (dinsert (g x) 3 d) = some 3 := by
          rw [dlookup_dinsert, if_pos hq]
        rw [dlookup_foldl_guard_pres (fun y e hce => ((hcond y e).mp hce).2) L _ q 3 h3]
        rw [if_pos ⟨x, List.mem_cons_self x L, ((hcond x d).mp hc).1, hq⟩]
      · have h2 : dlookup q (dinsert (g x) 3 d) = none := by
          rw [dlookup_dinsert, if_neg hq]; exact h
        rw [ih _ h2]
        have hiff : (∃ y ∈ L, P y ∧ g y = q) ↔ (∃ y ∈ x :: L, P y ∧ g y = q) := by
          constructor
          · rintro ⟨y, hy, hPy, hgy⟩
            exact ⟨y, List.mem_cons_of_mem x hy, hPy, hgy⟩
          · rintro ⟨y, hy, hPy, hgy⟩
            rcases List.mem_cons.mp hy with rfl | hy
            · exact absurd hgy hq
            · exact ⟨y, hy, hPy, hgy⟩
        rw [if_congr hiff rfl rfl]
    · rw [if_neg hc]
      rw [ih _ h]
      have hnx : ¬ (P x ∧ g x = q) := by
        rintro ⟨hPx, rfl⟩
        refine hc ((hcond x d).mpr ⟨hPx, fun hk => ?_⟩)
        rw [mem_dkeys_iff] at hk
        exact hk h
      have hiff : (∃ y ∈ L, P y ∧ g y = q) ↔ (∃ y ∈ x :: L, P y ∧ g y = q) := by
        constructor
        · rintro ⟨y, hy, hPy, hgy⟩
          exact ⟨y, List.mem_cons_of_mem x hy, hPy, hgy⟩
        · rintro ⟨y, hy, hPy, hgy⟩
          rcases List.mem_cons.mp hy with rfl | hy
          · exact absurd ⟨hPy, hgy⟩ hnx
          · exact ⟨y, hy, hPy, hgy⟩
      rw [if_congr hiff rfl rfl]

theorem dlookup_boxfold_pres
    {cond : Nat → Nat → List (Pos × Nat) → Prop} [∀ i j d, Decidable (cond i j d)]
    {g : Nat → Nat → Pos} (hcond : ∀ i j d, cond i j d → g i j ∉ dkeys d)
    (LI LJ : List Nat) (d : List (Pos × Nat)) (q : Pos) (v : Nat)
    (h : dlookup q d = some v) :
    dlookup q (LI.foldl (fun d i => LJ.foldl
      (fun d j => if cond i j d then dinsert (g i j) 3 d else d) d) d) = some v := by
  induction LI generalizing d with
  | nil => exact h
  | cons i LI ih =>
    rw [List.foldl_cons]
    exact ih _ (dlookup_foldl_guard_pres (hcond i) LJ d q v h)

theorem dlookup_boxfold_none
    {cond : Nat → Nat → List (Pos × Nat) → Prop} [∀ i j d, Decidable (cond i j d)]
    {g : Nat → Nat → Pos} {P : Nat → Nat → Prop} [∀ i j, Decidable (P i j)]
    (hcond : ∀ i j d, cond i j d ↔ P i j ∧ g i j ∉ dkeys d)
    (LI LJ : List Nat) (d : List (Pos × Nat)) (q : Pos)
    (h : dlookup q d = none) :
    dlookup q (LI.foldl (fun d i => LJ.foldl
      (fun d j => if cond i j d then dinsert (g i j) 3 d else d) d) d) =
      if ∃ i ∈ LI, ∃ j ∈ LJ, P i j ∧ g i j = q then some 3 else none := by
  induction LI generalizing d with
  | nil => simp [h]
  | cons i LI ih =>
    rw [List.foldl_cons]
    have hinner := dlookup_foldl_guard_none (hcond i) LJ d q h
    by_cases hj : ∃ j ∈ LJ, P i j ∧ g i j = q
    · rw [if_pos hj] at hinner
      rw [dlookup_boxfold_pres (fun a b e hce => ((hcond a b e).mp hce).2) LI LJ _ q 3 hinner]
      rw [if_pos ⟨i, List.mem_cons_self i LI, hj⟩]
    · rw [if_neg hj] at hinner
      rw [ih _ hinner]
      have hiff : (∃ a ∈ LI, ∃ j ∈ LJ, P a j ∧ g a j = q) ↔
          (∃ a ∈ i :: LI, ∃ j ∈ LJ, P a j ∧ g a j = q) := by
        constructor
        · rintro ⟨a, ha, hrest⟩
          exact ⟨a, List.mem_cons_of_mem i ha, hrest⟩
        · rintro ⟨a, ha, hrest⟩
          rcases List.mem_cons.mp ha with rfl | ha
          · exact absurd hrest hj
          · exact ⟨a, ha, hrest⟩
      rw [if_congr hiff rfl rfl]

/-! Stage decomposition of constraintsFor (definitionally equal to it). -/

/-- The four adjacency-marker inserts of set_constraints. -/
def adjacencyStage (rows cols : Nat) (H V : Board) (p : Pos) : List (Pos × Nat) :=
  let curRow := p.1
  let curCol := p.2
  let d : List (Pos × Nat) := []
  let d := if 1 ≤ curCol ∧ cell H curRow (curCol - 1) ≠ 0 then
             dinsert (curRow, curCol - 1) (cell H curRow (curCol - 1)) d else d
  let d := if curCol < cols - 1 ∧ cell H curRow curCol ≠ 0 then
             dinsert (curRow, curCol + 1) (cell H curRow curCol) d else d
  let d := if 1 ≤ curRow ∧ cell V (curRow - 1) curCol ≠ 0 then
             dinsert (curRow - 1, curCol) (cell V (curRow - 1) curCol) d else d
  if curRow < rows - 1 ∧ cell V curRow curCol ≠ 0 then
    dinsert (curRow + 1, curCol) (cell V curRow curCol) d else d

/-- The same-row loop of set_constraints. -/
def rowStage (cols : Nat) (p : Pos) (d : List (Pos × Nat)) : List (Pos × Nat) :=
  (List.range cols).foldl (fun d ic =>
    if ic ≠ p.2 ∧ ¬ dcontains (p.1, ic) d then dinsert (p.1, ic) 3 d else d) d

/-- The same-column loop of set_constraints. -/
def colStage (rows : Nat) (p : Pos) (d : List (Pos × Nat)) : List (Pos × Nat) :=
  (List.range rows).foldl (fun d ir =>
    if ir ≠ p.1 ∧ ¬ dcontains (ir, p.2) d then dinsert (ir, p.2) 3 d else d) d

/-- The 3 by 3 box double loop of set_constraints. -/
def boxStage (p : Pos) (d : List (Pos × Nat)) : List (Pos × Nat) :=
  (List.range 3).foldl (fun d i =>
    (List.range 3).foldl (fun d j =>
      if p.1 / 3 * 3 + i ≠ p.1 ∧ p.2 / 3 * 3 + j ≠ p.2 ∧
          ¬ dcontains (p.1 / 3 * 3 + i, p.2 / 3 * 3 + j) d then
        dinsert (p.1 / 3 * 3 + i, p.2 / 3 * 3 + j) 3 d else d) d) d

theorem constraintsFor_eq (rows cols : Nat) (H V : Board) (p : Pos) :
    constraintsFor rows cols H V p =
      boxStage p (colStage rows p (rowStage cols p (adjacencyStage rows cols H V p))) := rfl

theorem adjacencyStage_lookup (rows cols : Nat) (H V : Board) (p q : Pos) :
    dlookup q (adjacencyStage rows cols H V p) =
      if (p.1 < rows - 1 ∧ cell V p.1 p.2 ≠ 0) ∧ ((p.1 + 1, p.2) : Pos) = q then
        some (cell V p.1 p.2)
      else if (1 ≤ p.1 ∧ cell V (p.1 - 1) p.2 ≠ 0) ∧ ((p.1 - 1, p.2) : Pos) = q then
        some (cell V (p.1 - 1) p.2)
      else if (p.2 < cols - 1 ∧ cell H p.1 p.2 ≠ 0) ∧ ((p.1, p.2 + 1) : Pos) = q then
        some (cell H p.1 p.2)
      else if (1 ≤ p.2 ∧ cell H p.1 (p.2 - 1) ≠ 0) ∧ ((p.1, p.2 - 1) : Pos) = q then
        some (cell H p.1 (p.2 - 1))
      else none := by
  unfold adjacencyStage
  simp only [dlookup_ite_dinsert, dlookup_nil]

theorem adjacencyStage_lookup_some (H V : Board) {p q : Pos} (hp : inGrid p)
    (hadj : orthAdj p q) (hm : adjMarker H V p q ≠ 0) :
    dlookup q (adjacencyStage 9 9 H V p) = some (adjMarker H V p q) := by
  obtain ⟨r, c⟩ := p
  obtain ⟨qr, qc⟩ := q
  obtain ⟨hr, hc⟩ := hp
  obtain ⟨-, ⟨hqr, hqc⟩, hdir⟩ := hadj
  rw [adjacencyStage_lookup]
  rcases hdir with ⟨heq, hor | hor⟩ | ⟨heq, hor | hor⟩
  · -- q is the right neighbor of p
    obtain rfl : r = qr := heq
    obtain rfl : qc = c + 1 := hor.symm
    have hmv : adjMarker H V (r, c) (r, c + 1) = cell H r c := by
      unfold adjMarker
      rw [if_neg (by rintro ⟨-, h2⟩; omega), if_pos ⟨rfl, rfl⟩]
    rw [hmv] at hm ⊢
    rw [if_neg (by rintro ⟨-, h2⟩; rw [Prod.mk.injEq] at h2; omega),
      if_neg (by rintro ⟨⟨hg, -⟩, h2⟩; rw [Prod.mk.injEq] at h2; omega),
      if_pos ⟨⟨by omega, hm⟩, rfl⟩]
  · -- q is the left neighbor of p
    obtain rfl : r = qr := heq
    obtain rfl : c = qc + 1 := hor.symm
    have hmv : adjMarker H V (r, qc + 1) (r, qc) = cell H r qc := by
      unfold adjMarker
      rw [if_pos ⟨rfl, rfl⟩]
    rw [hmv] at hm ⊢
    rw [if_neg (by rintro ⟨-, h2⟩; rw [Prod.mk.injEq] at h2; omega),
      if_neg (by rintro ⟨⟨hg, -⟩, h2⟩; rw [Prod.mk.injEq] at h2; omega),
      if_neg (by rintro ⟨-, h2⟩; rw [Prod.mk.injEq] at h2; omega),
      if_pos ⟨⟨by omega, by simpa using hm⟩, by rw [Prod.mk.injEq]; omega⟩]
    simp
  · -- q is the lower neighbor of p
    obtain rfl : c = qc := heq
    obtain rfl : qr = r + 1 := hor.symm
    have hmv : adjMarker H V (r, c) (r + 1, c) = cell V r c := by
      unfold adjMarker
      rw [if_neg (by rintro ⟨h1, -⟩; omega), if_neg (by rintro ⟨h1, -⟩; omega),
        if_neg (by rintro ⟨-, h2⟩; omega), if_pos ⟨rfl, rfl⟩]
    rw [hmv] at hm ⊢
    rw [if_pos ⟨⟨by omega, hm⟩, rfl⟩]
  · -- q is the upper neighbor of p
    obtain rfl : c = qc := heq
    obtain rfl : r = qr + 1 := hor.symm
    have hmv : adjMarker H V (qr + 1, c) (qr, c) = cell V qr c := by
      unfold adjMarker
      rw [if_neg (by rintro ⟨h1, -⟩; omega), if_neg (by rintro ⟨h1, -⟩; omega),
        if_pos ⟨rfl, rfl⟩]
    rw [hmv] at hm ⊢
    rw [if_neg (by rintro ⟨-, h2⟩; rw [Prod.mk.injEq] at h2; omega),
      if_pos ⟨⟨by omega, by simpa using hm⟩, by rw [Prod.mk.injEq]; omega⟩]
    simp

theorem adjacencyStage_lookup_none (H V : Board) {p q : Pos} (hp : inGrid p)
    (hq : ¬ (orthAdj p q ∧ adjMarker H V p q ≠ 0)) :
    dlookup q (adjacencyStage 9 9 H V p) = none := by
  obtain ⟨r, c⟩ := p
  obtain ⟨qr, qc⟩ := q
  obtain ⟨hr, hc⟩ := hp
  rw [adjacencyStage_lookup]
  rw [if_neg, if_neg, if_neg, if_neg]
  · -- left neighbor branch
    rintro ⟨⟨hg, hmne⟩, hkey⟩
    rw [Prod.mk.injEq] at hkey
    obtain ⟨rfl, rfl⟩ := hkey
    refine hq ⟨⟨⟨hr, hc⟩, ⟨hr, by omega⟩, Or.inl ⟨rfl, Or.inr (by omega)⟩⟩, ?_⟩
    have hmv : adjMarker H V (r, c) (r, c - 1) = cell H r (c - 1) := by
      unfold adjMarker
      rw [if_pos ⟨rfl, by omega⟩]
    rw [hmv]
    exact hmne
  · -- right neighbor branch
    rintro ⟨⟨hg, hmne⟩, hkey⟩
    rw [Prod.mk.injEq] at hkey
    obtain ⟨rfl, rfl⟩ := hkey
    refine hq ⟨⟨⟨hr, hc⟩, ⟨hr, by omega⟩, Or.inl ⟨rfl, Or.inl rfl⟩⟩, ?_⟩
    have hmv : adjMarker H V (r, c) (r, c + 1) = cell H r c := by
      unfold adjMarker
      rw [if_neg (by rintro ⟨-, h2⟩; omega), if_pos ⟨rfl, rfl⟩]
    rw [hmv]
    exact hmne
  · -- upper neighbor branch
    rintro ⟨⟨hg, hmne⟩, hkey⟩
    rw [Prod.mk.injEq] at hkey
    obtain ⟨rfl, rfl⟩ := hkey
    refine hq ⟨⟨⟨hr, hc⟩, ⟨by omega, hc⟩, Or.inr ⟨rfl, Or.inr (by omega)⟩⟩, ?_⟩
    have hmv : adjMarker H V (r, c) (r - 1, c) = cell V (r - 1) c := by
      unfold adjMarker
      rw [if_neg (by rintro ⟨h1, -⟩; omega), if_neg (by rintro ⟨h1, -⟩; omega),
        if_pos ⟨rfl, by omega⟩]
    rw [hmv]
    exact hmne
  · -- lower neighbor branch
    rintro ⟨⟨hg, hmne⟩, hkey⟩
    rw [Prod.mk.injEq] at hkey
    obtain ⟨rfl, rfl⟩ := hkey
    refine hq ⟨⟨⟨hr, hc⟩, ⟨by omega, hc⟩, Or.inr ⟨rfl, Or.inl rfl⟩⟩, ?_⟩
    have hmv : adjMarker H V (r, c) (r + 1, c) = cell V r c := by
      unfold adjMarker
      rw [if_neg (by rintro ⟨h1, -⟩; omega), if_neg (by rintro ⟨h1, -⟩; omega),
        if_neg (by rintro ⟨-, h2⟩; omega), if_pos ⟨rfl, rfl⟩]
    rw [hmv]
    exact hmne

/-- Full characterization of the constraint dict built for a variable p:
an orthogonally adjacent cell with a nonzero dot marker maps to that
marker; every other cell sharing p's row, column or box maps to 3; nothing
else is present. -/
theorem constraintsFor_lookup (H V : Board) (p q : Pos) (hp : inGrid p) :
    dlookup q (constraintsFor 9 9 H V p) =
      if orthAdj p q ∧ adjMarker H V p q ≠ 0 then some (adjMarker H V p q)
      else if peers p q then some 3 else none := by
  obtain ⟨r, c⟩ := p
  obtain ⟨qr, qc⟩ := q
  have hr : r < 9 := hp.1
  have hc : c < 9 := hp.2
  rw [constraintsFor_eq]
  have hcondRow : ∀ (x : Nat) (d : List (Pos × Nat)),
      (x ≠ c ∧ ¬ dcontains (r, x) d = true) ↔ (x ≠ c ∧ ((r, x) : Pos) ∉ dkeys d) := by
    intro x d; rw [dcontains_eq_true_iff]
  have hcondCol : ∀ (x : Nat) (d : List (Pos × Nat)),
      (x ≠ r ∧ ¬ dcontains (x, c) d = true) ↔ (x ≠ r ∧ ((x, c) : Pos) ∉ dkeys d) := by
    intro x d; rw [dcontains_eq_true_iff]
  have hcondBox : ∀ (i j : Nat) (d : List (Pos × Nat)),
      (r / 3 * 3 + i ≠ r ∧ c / 3 * 3 + j ≠ c ∧
          ¬ dcontains (r / 3 * 3 + i, c / 3 * 3 + j) d = true) ↔
        ((r / 3 * 3 + i ≠ r ∧ c / 3 * 3 + j ≠ c) ∧
          ((r / 3 * 3 + i, c / 3 * 3 + j) : Pos) ∉ dkeys d) := by
    intro i j d; rw [dcontains_eq_true_iff]; tauto
  by_cases h1 : orthAdj (r, c) (qr, qc) ∧ adjMarker H V (r, c) (qr, qc) ≠ 0
  · rw [if_pos h1]
    have h2 := adjacencyStage_lookup_some H V hp h1.1 h1.2
    have h3 : dlookup (qr, qc) (rowStage 9 (r, c) (adjacencyStage 9 9 H V (r, c))) =
        some (adjMarker H V (r, c) (qr, qc)) :=
      dlookup_foldl_guard_pres (fun x d hx => ((hcondRow x d).mp hx).2) (List.range 9) _ _ _ h2
    have h4 : dlookup (qr, qc) (colStage 9 (r, c)
        (rowStage 9 (r, c) (adjacencyStage 9 9 H V (r, c)))) =
        some (adjMarker H V (r, c) (qr, qc)) :=
      dlookup_foldl_guard_pres (fun x d hx => ((hcondCol x d).mp hx).2) (List.range 9) _ _ _ h3
    exact dlookup_boxfold_pres (fun i j d hx => ((hcondBox i j d).mp hx).2)
      (List.range 3) (List.range 3) _ _ _ h4
  · rw [if_neg h1]
    have h2 := adjacencyStage_lookup_none H V hp h1
    have h3 : dlookup (qr, qc) (rowStage 9 (r, c) (adjacencyStage 9 9 H V (r, c))) =
        if ∃ x ∈ List.range 9, x ≠ c ∧ ((r, x) : Pos) = (qr, qc) then some 3 else none :=
      dlookup_foldl_guard_none hcondRow (List.range 9) _ _ h2
    by_cases hrowc : qr = r ∧ qc < 9 ∧ qc ≠ c
    · have hex : ∃ x ∈ List.range 9, x ≠ c ∧ ((r, x) : Pos) = (qr, qc) :=
        ⟨qc, List.mem_range.mpr hrowc.2.1, hrowc.2.2, by rw [hrowc.1]⟩
      rw [if_pos hex] at h3
      have h4 : dlookup (qr, qc) (colStage 9 (r, c)
          (rowStage 9 (r, c) (adjacencyStage 9 9 H V (r, c)))) = some 3 :=
        dlookup_foldl_guard_pres (fun x d hx => ((hcondCol x d).mp hx).2) (List.range 9) _ _ _ h3
      have h5 : dlookup (qr, qc) (boxStage (r, c) (colStage 9 (r, c)
          (rowStage 9 (r, c) (adjacencyStage 9 9 H V (r, c))))) = some 3 :=
        dlookup_boxfold_pres (fun i j d hx => ((hcondBox i j d).mp hx).2)
          (List.range 3) (List.range 3) _ _ _ h4
      rw [h5, if_pos ?_]
      refine ⟨⟨hr, hc⟩, ⟨by omega, hrowc.2.1⟩, ?_, Or.inl hrowc.1.symm⟩
      rw [Ne, Prod.mk.injEq]
      rintro ⟨-, h⟩
      exact hrowc.2.2 h.symm
    · rw [if_neg ?_] at h3
      swap
      · rintro ⟨x, hx, hne, heq⟩
        rw [Prod.mk.injEq] at heq
        exact hrowc ⟨heq.1.symm, by rw [← heq.2]; exact ⟨List.mem_range.mp hx, hne⟩⟩
      have h4 : dlookup (qr, qc) (colStage 9 (r, c)
          (rowStage 9 (r, c) (adjacencyStage 9 9 H V (r, c)))) =
          if ∃ x ∈ List.range 9, x ≠ r ∧ ((x, c) : Pos) = (qr, qc) then some 3 else none :=
        dlookup_foldl_guard_none hcondCol (List.range 9) _ _ h3
      by_cases hcolc : qc = c ∧ qr < 9 ∧ qr ≠ r
      · have hex : ∃ x ∈ List.range 9, x ≠ r ∧ ((x, c) : Pos) = (qr, qc) :=
          ⟨qr, List.mem_range.mpr hcolc.2.1, hcolc.2.2, by rw [hcolc.1]⟩
        rw [if_pos hex] at h4
        have h5 : dlookup (qr, qc) (boxStage (r, c) (colStage 9 (r, c)
            (rowStage 9 (r, c) (adjacencyStage 9 9 H V (r, c))))) = some 3 :=
          dlookup_boxfold_pres (fun i j d hx => ((hcondBox i j d).mp hx).2)
            (List.range 3) (List.range 3) _ _ _ h4
        rw [h5, if_pos ?_]
        refine ⟨⟨hr, hc⟩, ⟨hcolc.2.1, by omega⟩, ?_, Or.inr (Or.inl hcolc.1.symm)⟩
        rw [Ne, Prod.mk.injEq]
        rintro ⟨h, -⟩
        exact hcolc.2.2 h.symm
      · rw [if_neg ?_] at h4
        swap
        · rintro ⟨x, hx, hne, heq⟩
          rw [Prod.mk.injEq] at heq
          exact hcolc ⟨heq.2.symm, by rw [← heq.1]; exact ⟨List.mem_range.mp hx, hne⟩⟩
        have h5 : dlookup (qr, qc) (boxStage (r, c) (colStage 9 (r, c)
            (rowStage 9 (r, c) (adjacencyStage 9 9 H V (r, c))))) =
            if ∃ i ∈ List.range 3, ∃ j ∈ List.range 3,
                (r / 3 * 3 + i ≠ r ∧ c / 3 * 3 + j ≠ c) ∧
                ((r / 3 * 3 + i, c / 3 * 3 + j) : Pos) = (qr, qc) then some 3 else none :=
          dlookup_boxfold_none hcondBox (List.range 3) (List.range 3) _ _ h4
        by_cases hboxc : qr / 3 = r / 3 ∧ qc / 3 = c / 3 ∧ qr ≠ r ∧ qc ≠ c
        · have hex : ∃ i ∈ List.range 3, ∃ j ∈ List.range 3,
              (r / 3 * 3 + i ≠ r ∧ c / 3 * 3 + j ≠ c) ∧
              ((r / 3 * 3 + i, c / 3 * 3 + j) : Pos) = (qr, qc) := by
            refine ⟨qr - r / 3 * 3, List.mem_range.mpr (by omega),
              qc - c / 3 * 3, List.mem_range.mpr (by omega),
              ⟨by omega, by omega⟩, ?_⟩
            rw [Prod.mk.injEq]
            omega
          rw [if_pos hex] at h5
          rw [h5, if_pos ?_]
          refine ⟨⟨hr, hc⟩, ⟨by omega, by omega⟩, ?_, Or.inr (Or.inr ⟨hboxc.1.symm, hboxc.2.1.symm⟩)⟩
          rw [Ne, Prod.mk.injEq]
          rintro ⟨h, -⟩
          exact hboxc.2.2.1 h.symm
        · rw [if_neg ?_] at h5
          swap
          · rintro ⟨i, hi, j, hj, ⟨hne1, hne2⟩, heq⟩
            rw [Prod.mk.injEq] at heq
            rw [List.mem_range] at hi hj
            exact hboxc ⟨by omega, by omega, by omega, by omega⟩
          rw [h5, if_neg ?_]
          rintro ⟨-, hqg, hne, hdir⟩
          have hqr : qr < 9 := hqg.1
          have hqc : qc < 9 := hqg.2
          rw [Ne, Prod.mk.injEq] at hne
          rcases hdir with hd | hd | hd
          · have hd1 : qr = r := hd.symm
            exact hrowc ⟨hd1, hqc, fun he => hne ⟨hd1.symm, he.symm⟩⟩
          · have hd1 : qc = c := hd.symm
            exact hcolc ⟨hd1, hqr, fun he => hne ⟨he.symm, hd1.symm⟩⟩
          · have hb1 : r / 3 = qr / 3 := hd.1
            have hb2 : c / 3 = qc / 3 := hd.2
            by_cases he1 : qr = r
            · exact hrowc ⟨he1, hqc, fun he => hne ⟨he1.symm, he.symm⟩⟩
            · by_cases he2 : qc = c
              · exact hcolc ⟨he2, hqr, he1⟩
              · exact hboxc ⟨hb1.symm, hb2.symm, he1, he2⟩

theorem orthAdj_peers {p q : Pos} (h : orthAdj p q) : peers p q := by
  obtain ⟨hp, hq, hdir⟩ := h
  refine ⟨hp, hq, ?_, ?_⟩
  · rw [Ne, Prod.mk.injEq]
    rintro ⟨h1, h2⟩
    rcases hdir with ⟨-, ho | ho⟩ | ⟨-, ho | ho⟩ <;> omega
  · rcases hdir with ⟨he, -⟩ | ⟨he, -⟩
    · exact Or.inl he
    · exact Or.inr (Or.inl he)

theorem orthAdj_irrefl (p : Pos) : ¬ orthAdj p p := by
  rintro ⟨-, -, ⟨-, ho | ho⟩ | ⟨-, ho | ho⟩⟩ <;> omega

theorem peers_irrefl (p : Pos) : ¬ peers p p := fun h => h.2.2.1 rfl

theorem adjMarker_le_two {H V : Board} (hH : MarkerWF H) (hV : MarkerWF V)
    {p q : Pos} (hp : inGrid p) (hq : inGrid q) : adjMarker H V p q ≤ 2 := by
  unfold adjMarker
  split_ifs with h1 h2 h3 h4
  · exact hH p.1 hp.1 q.2 hq.2
  · exact hH p.1 hp.1 p.2 hp.2
  · exact hV q.1 hq.1 p.2 hp.2
  · exact hV p.1 hp.1 p.2 hp.2
  · omega

theorem dkeys_nodup_ite_dinsert {β : Type} (P : Prop) [Decidable P] (k : Pos) (v : β)
    (d : List (Pos × β)) (h : (dkeys d).Nodup) :
    (dkeys (if P then dinsert k v d else d)).Nodup := by
  by_cases hP : P
  · rw [if_pos hP]; exact dkeys_dinsert_nodup k v d h
  · rw [if_neg hP]; exact h

theorem dkeys_nodup_foldl {α : Type} {step : List (Pos × Nat) → α → List (Pos × Nat)}
    (hstep : ∀ d x, (dkeys d).Nodup → (dkeys (step d x)).Nodup)
    (L : List α) (d : List (Pos × Nat)) (h : (dkeys d).Nodup) :
    (dkeys (L.foldl step d)).Nodup := by
  induction L generalizing d with
  | nil => exact h
  | cons x L ih => exact ih _ (hstep d x h)

theorem constraintsFor_keys_nodup (rows cols : Nat) (H V : Board) (p : Pos) :
    (dkeys (constraintsFor rows cols H V p)).Nodup := by
  rw [constraintsFor_eq]
  refine dkeys_nodup_foldl (fun d i h =>
    dkeys_nodup_foldl (fun d j h2 => dkeys_nodup_ite_dinsert _ _ _ _ h2) _ _ h) _ _ ?_
  refine dkeys_nodup_foldl (fun d x h => dkeys_nodup_ite_dinsert _ _ _ _ h) _ _ ?_
  refine dkeys_nodup_foldl (fun d x h => dkeys_nodup_ite_dinsert _ _ _ _ h) _ _ ?_
  unfold adjacencyStage
  exact dkeys_nodup_ite_dinsert _ _ _ _ (dkeys_nodup_ite_dinsert _ _ _ _
    (dkeys_nodup_ite_dinsert _ _ _ _ (dkeys_nodup_ite_dinsert _ _ _ _ List.nodup_nil)))

/-! Lemmas about set_variables. -/

theorem mem_set_variables (board : Board) (p : Pos) :
    p ∈ set_variables 9 9 board ↔ p.1 < 9 ∧ p.2 < 9 ∧ cell board p.1 p.2 = 0 := by
  obtain ⟨r, c⟩ := p
  unfold set_variables
  simp only [List.mem_flatMap, List.mem_map, List.mem_filter, List.mem_range, beq_iff_eq,
    Prod.mk.injEq]
  constructor
  · rintro ⟨i, hi, j, ⟨hj, hc⟩, rfl, rfl⟩
    exact ⟨hi, hj, hc⟩
  · rintro ⟨h1, h2, h3⟩
    exact ⟨r, h1, c, ⟨h2, h3⟩, rfl, rfl⟩

theorem set_variables_nodup (board : Board) : (set_variables 9 9 board).Nodup := by
  unfold set_variables
  rw [List.nodup_flatMap]
  constructor
  · intro i _
    refine List.Nodup.map ?_ ((List.nodup_range 9).filter _)
    intro a b hab
    simpa using hab
  · refine (List.pairwise_lt_range 9).imp ?_
    intro i j hij x hx hy
    simp only [List.mem_map, List.mem_filter, List.mem_range] at hx hy
    obtain ⟨a, _, rfl⟩ := hx
    obtain ⟨b, _, hbe⟩ := hy
    have : j = i := congrArg Prod.fst hbe
    omega

theorem set_variables_eq_nil (board : Board)
    (h : ∀ r < 9, ∀ c < 9, cell board r c ≠ 0) : set_variables 9 9 board = [] := by
  have : ∀ p, p ∉ set_variables 9 9 board := by
    intro p hp
    obtain ⟨h1, h2, h3⟩ := (mem_set_variables board p).mp hp
    exact h p.1 h1 p.2 h2 h3
  exact List.eq_nil_iff_forall_not_mem.mpr this

theorem dlookup_set_constraints (rows cols : Nat) (H V : Board) (vars : List Pos) (p : Pos) :
    dlookup p (set_constraints rows cols H V vars) =
      if p ∈ vars then some (constraintsFor rows cols H V p) else none := by
  unfold set_constraints
  rw [dlookup_foldl_dinsert (fun q => constraintsFor rows cols H V q) vars [] p]
  by_cases h : p ∈ vars <;> simp [h, dlookup]

theorem dlookup_set_domain (cs : List (Pos × List (Pos × Nat))) (board : Board)
    (vars : List Pos) (p : Pos) :
    dlookup p (set_domain cs board vars) =
      if p ∈ vars then
        some ((List.range' 1 9).filter fun v => is_consistent cs board p v)
      else none := by
  unfold set_domain
  rw [dlookup_foldl_dinsert
    (fun q => (List.range' 1 9).filter fun v => is_consistent cs board q v) vars [] p]
  by_cases h : p ∈ vars <;> simp [h, dlookup]

/-! Claim C5: structure of the constraint map after set_constraints. -/

/-- C5: for every variable p, the constraint dict built by set_constraints
has pairwise distinct keys, never records p itself, records exactly the
cells sharing p's row, column or box, and assigns each recorded cell
exactly one kind: the dot marker kind (1 or 2, given well-formed marker
grids) for an orthogonally adjacent cell whose marker is nonzero, and the
must-differ kind 3 for every other recorded cell. -/
theorem set_constraints_characterization (board H V : Board)
    (hH : MarkerWF H) (hV : MarkerWF V) (p : Pos)
    (hp : p ∈ set_variables 9 9 board) :
    ((dkeys (dlookupD p (set_constraints 9 9 H V (set_variables 9 9 board)) [])).Nodup ∧
      p ∉ dkeys (dlookupD p (set_constraints 9 9 H V (set_variables 9 9 board)) [])) ∧
    (∀ q : Pos,
      q ∈ dkeys (dlookupD p (set_constraints 9 9 H V (set_variables 9 9 board)) []) ↔
      peers p q) ∧
    (∀ q k,
      dlookup q (dlookupD p (set_constraints 9 9 H V (set_variables 9 9 board)) []) = some k →
      if orthAdj p q ∧ adjMarker H V p q ≠ 0 then k = adjMarker H V p q ∧ (k = 1 ∨ k = 2)
      else k = 3) := by
  have hpm := (mem_set_variables board p).mp hp
  have hpg : inGrid p := ⟨hpm.1, hpm.2.1⟩
  have hm : dlookupD p (set_constraints 9 9 H V (set_variables 9 9 board)) [] =
      constraintsFor 9 9 H V p := by
    unfold dlookupD
    rw [dlookup_set_constraints, if_pos hp]
    rfl
  rw [hm]
  refine ⟨⟨constraintsFor_keys_nodup 9 9 H V p, ?_⟩, ?_, ?_⟩
  · rw [mem_dkeys_iff, constraintsFor_lookup H V p p hpg,
      if_neg (fun h => orthAdj_irrefl p h.1), if_neg (peers_irrefl p)]
    simp
  · intro q
    rw [mem_dkeys_iff, constraintsFor_lookup H V p q hpg]
    by_cases h1 : orthAdj p q ∧ adjMarker H V p q ≠ 0
    · rw [if_pos h1]
      exact ⟨fun _ => orthAdj_peers h1.1, fun _ => by simp⟩
    · rw [if_neg h1]
      by_cases h2 : peers p q
      · rw [if_pos h2]
        exact ⟨fun _ => h2, fun _ => by simp⟩
      · rw [if_neg h2]
        exact ⟨fun h => absurd rfl h, fun h => absurd h h2⟩
  · intro q k hk
    rw [constraintsFor_lookup H V p q hpg] at hk
    by_cases h1 : orthAdj p q ∧ adjMarker H V p q ≠ 0
    · rw [if_pos h1] at hk
      rw [if_pos h1]
      have hle := adjMarker_le_two hH hV hpg h1.1.2.1
      obtain rfl : adjMarker H V p q = k := Option.some.inj hk
      exact ⟨rfl, by omega⟩
    · rw [if_neg h1] at hk ⊢
      by_cases h2 : peers p q
      · rw [if_pos h2] at hk
        exact (Option.some.inj hk).symm
      · rw [if_neg h2] at hk
        cases hk

/-! Concrete inputs used by counterexamples and witnesses. -/

/-- An all-zero 9 by 9 grid (empty board, or marker grids with no dots). -/
def M0 : Board := List.replicate 9 (List.replicate 9 0)

/-- A classic valid complete Sudoku grid. -/
def latinBoard : Board :=
  (List.range 9).map fun i => (List.range 9).map fun j => (3 * (i % 3) + i / 3 + j) % 9 + 1

/-- latinBoard with cell (0,1) overwritten by 1, duplicating the 1 at (0,0)
in row 0, and cell (8,8) blanked: one variable, one row conflict among the
pre-filled cells. -/
def boardC2 : Board := setCell (setCell latinBoard 0 1 1) 8 8 0

/-- The board the engine returns on boardC2: the blank filled with 8, the
row-0 duplicate untouched. -/
def solC2 : Board := setCell boardC2 8 8 8

/-- latinBoard with cell (0,1) overwritten by 1: a complete board with a
row conflict and no unassigned cell. -/
def boardC3 : Board := setCell latinBoard 0 1 1

/-- The all-ones complete board. -/
def allOnes : Board := List.replicate 9 (List.replicate 9 1)

/-- Board with exactly two variables (0,0) and (0,1), both with initial
domain [1, 9]; used to exhibit forward checking pruning the domain of an
already assigned variable. -/
def boardC7 : Board :=
  [[0,0,2,3,4,5,6,7,8],
   [2,3,3,2,2,2,2,2,2],
   [2,3,3,2,2,2,2,2,2],
   [2,2,2,2,2,2,2,2,2],
   [2,2,2,2,2,2,2,2,2],
   [2,2,2,2,2,2,2,2,2],
   [2,2,2,2,2,2,2,2,2],
   [2,2,2,2,2,2,2,2,2],
   [2,2,2,2,2,2,2,2,2]]

/-- Board with exactly three variables (0,0), (4,4), (4,8), all with
domain [1]: a three-way MRV tie in which the code's degree count (20 for
each, pre-filled neighbors included) differs from the spec's count of
unassigned variable neighbors (0, 1, 1). -/
def boardC8 : Board :=
  [[0,2,3,4,5,6,7,8,9],
   [2,2,2,2,2,2,2,2,2],
   [2,2,2,2,2,2,2,2,2],
   [2,2,2,2,2,2,2,2,2],
   [2,3,4,5,0,6,7,8,0],
   [2,2,2,2,2,2,2,2,2],
   [2,2,2,2,2,2,2,2,2],
   [2,2,2,2,2,2,2,2,2],
   [2,2,2,2,9,2,2,2,2]]

/-- A horizontal marker grid with a single white dot between (0,0) and (0,1). -/
def MH1 : Board := setCell M0 0 0 1

/-- Witness for C5 at boardC7 with a white dot between (0,0) and (0,1):
the neighbor (0,1) is recorded for the variable (0,0). -/
theorem set_constraints_characterization_witness :
    ((0, 1) : Pos) ∈
      dkeys (dlookupD (0, 0) (set_constraints 9 9 MH1 M0 (set_variables 9 9 boardC7)) []) :=
  ((set_constraints_characterization boardC7 MH1 M0 (by decide) (by decide) (0, 0)
    (by decide)).2.1 (0, 1)).mpr (by decide)

/-! Claims C8 and C7: variable selection and forward checking. -/

theorem pyMaxBy_fold_spec (key : Pos → Nat) (l2 : List Pos) (b : Pos) :
    (l2.foldl (fun best y => if key best < key y then y else best) b = b ∨
      l2.foldl (fun best y => if key best < key y then y else best) b ∈ l2) ∧
    (∀ y ∈ l2, key y ≤ key (l2.foldl (fun best y => if key best < key y then y else best) b)) ∧
    key b ≤ key (l2.foldl (fun best y => if key best < key y then y else best) b) := by
  induction l2 generalizing b with
  | nil =>
    exact ⟨Or.inl rfl, fun y hy => absurd hy (List.not_mem_nil y), Nat.le_refl _⟩
  | cons w l2 ih =>
    rw [List.foldl_cons]
    by_cases hw : key b < key w
    · rw [if_pos hw]
      obtain ⟨h1, h2, h3⟩ := ih w
      refine ⟨?_, ?_, by omega⟩
      · rcases h1 with h1 | h1
        · exact Or.inr (by rw [h1]; exact List.mem_cons_self w l2)
        · exact Or.inr (List.mem_cons_of_mem w h1)
      · intro y hy
        rcases List.mem_cons.mp hy with rfl | hy
        · exact h3
        · exact h2 y hy
    · rw [if_neg hw]
      obtain ⟨h1, h2, h3⟩ := ih b
      refine ⟨?_, ?_, h3⟩
      · rcases h1 with h1 | h1
        · exact Or.inl h1
        · exact Or.inr (List.mem_cons_of_mem w h1)
      · intro y hy
        rcases List.mem_cons.mp hy with rfl | hy
        · omega
        · exact h2 y hy

theorem pyMaxBy_spec (key : Pos → Nat) (l : List Pos) (x : Pos)
    (h : pyMaxBy key l = some x) : x ∈ l ∧ ∀ y ∈ l, key y ≤ key x := by
  obtain ⟨z, l, rfl⟩ : ∃ z l2, l = z :: l2 := by
    cases l with
    | nil => cases h
    | cons z l2 => exact ⟨z, l2, rfl⟩
  unfold pyMaxBy at h
  rw [Option.some.injEq] at h
  subst h
  obtain ⟨h1, h2, h3⟩ := pyMaxBy_fold_spec key l z
  constructor
  · rcases h1 with h1 | h1
    · rw [h1]; exact List.mem_cons_self z l
    · exact List.mem_cons_of_mem z h1
  · intro y hy
    rcases List.mem_cons.mp hy with rfl | hy
    · exact h3
    · exact h2 y hy

theorem pyMin_fold_mem (xs : List Nat) (x : Nat) :
    xs.foldl Nat.min x = x ∨ xs.foldl Nat.min x ∈ xs := by
  induction xs generalizing x with
  | nil => exact Or.inl rfl
  | cons w xs ih =>
    rw [List.foldl_cons]
    rcases ih (Nat.min x w) with h | h
    · by_cases hxw : x ≤ w
      · refine Or.inl ?_
        rw [h]
        exact Nat.min_eq_left hxw
      · refine Or.inr ?_
        rw [h]
        have hmin : Nat.min x w = w := Nat.min_eq_right (by omega)
        rw [hmin]
        exact List.mem_cons_self w xs
    · exact Or.inr (List.mem_cons_of_mem w h)

theorem pyMin_mem (l : List Nat) (h : l ≠ []) : pyMin l ∈ l := by
  cases l with
  | nil => exact absurd rfl h
  | cons x xs =>
    rw [show pyMin (x :: xs) = xs.foldl Nat.min x from rfl]
    rcases pyMin_fold_mem xs x with h1 | h1
    · rw [h1]; exact List.mem_cons_self x xs
    · exact List.mem_cons_of_mem x h1

theorem select_spec_aux (vars : List Pos)
    (domains : List (Pos × List Nat)) (cs : List (Pos × List (Pos × Nat)))
    (assignment : List (Pos × Nat)) (v : Pos)
    (h : select_unassigned_variable vars domains cs assignment = some v) :
    v ∈ (vars.filter fun u => !dcontains u assignment).filter
        (fun u => (dlookupD u domains []).length ==
          pyMin ((vars.filter fun u => !dcontains u assignment).map
            fun u => (dlookupD u domains []).length)) ∧
    ∀ u ∈ (vars.filter fun u => !dcontains u assignment).filter
        (fun u => (dlookupD u domains []).length ==
          pyMin ((vars.filter fun u => !dcontains u assignment).map
            fun u => (dlookupD u domains []).length)),
      pyDegree cs assignment u ≤ pyDegree cs assignment v := by
  unfold select_unassigned_variable at h
  cases hu : vars.filter fun u => !dcontains u assignment with
  | nil => rw [hu] at h; simp at h
  | cons w rest =>
    rw [hu] at h
    simp only at h
    by_cases hlen : ((w :: rest).filter fun u => (dlookupD u domains []).length ==
        pyMin ((w :: rest).map fun u => (dlookupD u domains []).length)).length = 1
    · rw [if_pos hlen] at h
      obtain ⟨a, ha⟩ := List.length_eq_one.mp hlen
      rw [ha] at h ⊢
      obtain rfl : a = v := by simpa using h
      constructor
      · exact List.mem_singleton_self a
      · intro u hu2
        rw [List.mem_singleton] at hu2
        subst hu2
        exact Nat.le_refl _
    · rw [if_neg hlen] at h
      exact pyMaxBy_spec _ _ _ h

/-- C8 amended: whatever the tie situation, select_unassigned_variable
returns a member of the MRV tie set maximizing the count the code
actually uses: the number of constraint-map neighbors not present in the
assignment dict.  Pre-filled givens are never in the assignment, so they
count as unassigned neighbors in this degree (unlike the spec's count
specDegree of yet-unassigned variable neighbors, refuted by
select_degree_counts_prefilled_cex). -/
theorem select_unassigned_variable_spec (vars : List Pos)
    (domains : List (Pos × List Nat)) (cs : List (Pos × List (Pos × Nat)))
    (assignment : List (Pos × Nat)) (v : Pos)
    (h : select_unassigned_variable vars domains cs assignment = some v) :
    v ∈ (vars.filter fun u => !dcontains u assignment).filter
        (fun u => (dlookupD u domains []).length ==
          pyMin ((vars.filter fun u => !dcontains u assignment).map
            fun u => (dlookupD u domains []).length)) ∧
    ∀ u ∈ (vars.filter fun u => !dcontains u assignment).filter
        (fun u => (dlookupD u domains []).length ==
          pyMin ((vars.filter fun u => !dcontains u assignment).map
            fun u => (dlookupD u domains []).length)),
      pyDegree cs assignment u ≤ pyDegree cs assignment v :=
  select_spec_aux vars domains cs assignment v h

set_option maxRecDepth 100000 in
/-- Witness for the amended C8 on the boardC8 state: the returned
variable (0,0) is in the MRV tie set. -/
theorem select_unassigned_variable_spec_witness :
    ((0, 0) : Pos) ∈ ((set_variables 9 9 boardC8).filter fun u =>
        !dcontains u ([] : List (Pos × Nat))).filter
      (fun u => (dlookupD u (set_domain (set_constraints 9 9 M0 M0
          (set_variables 9 9 boardC8)) boardC8 (set_variables 9 9 boardC8)) []).length ==
        pyMin (((set_variables 9 9 boardC8).filter fun u =>
            !dcontains u ([] : List (Pos × Nat))).map
          fun u => (dlookupD u (set_domain (set_constraints 9 9 M0 M0
            (set_variables 9 9 boardC8)) boardC8 (set_variables 9 9 boardC8)) []).length)) :=
  (select_unassigned_variable_spec (set_variables 9 9 boardC8)
    (set_domain (set_constraints 9 9 M0 M0 (set_variables 9 9 boardC8)) boardC8
      (set_variables 9 9 boardC8))
    (set_constraints 9 9 M0 M0 (set_variables 9 9 boardC8)) [] (0, 0) (by decide)).1

set_option maxRecDepth 100000 in
/-- Counterexample to C8 as stated: on boardC8 with no markers, the three
variables (0,0), (4,4), (4,8) tie for the minimum domain size (all
domains are [1]); the code returns (0,0), but counting only yet-unassigned
variable neighbors as the claim specifies (pre-filled givens not
counting), (0,0) has 0 such neighbors while the tied (4,4) has 1, so the
returned variable is not among the tied variables with the largest number
of yet-unassigned neighbors. -/
theorem select_degree_counts_prefilled_cex :
    ((set_variables 9 9 boardC8).filter fun u =>
        !dcontains u ([] : List (Pos × Nat))).filter
      (fun u => (dlookupD u (set_domain (set_constraints 9 9 M0 M0
          (set_variables 9 9 boardC8)) boardC8 (set_variables 9 9 boardC8)) []).length ==
        pyMin (((set_variables 9 9 boardC8).filter fun u =>
            !dcontains u ([] : List (Pos × Nat))).map
          fun u => (dlookupD u (set_domain (set_constraints 9 9 M0 M0
            (set_variables 9 9 boardC8)) boardC8
            (set_variables 9 9 boardC8)) []).length)) =
      [(0, 0), (4, 4), (4, 8)] ∧
    select_unassigned_variable (set_variables 9 9 boardC8)
      (set_domain (set_constraints 9 9 M0 M0 (set_variables 9 9 boardC8)) boardC8
        (set_variables 9 9 boardC8))
      (set_constraints 9 9 M0 M0 (set_variables 9 9 boardC8)) [] = some (0, 0) ∧
    specDegree (set_constraints 9 9 M0 M0 (set_variables 9 9 boardC8))
      (set_variables 9 9 boardC8) [] (0, 0) = 0 ∧
    specDegree (set_constraints 9 9 M0 M0 (set_variables 9 9 boardC8))
      (set_variables 9 9 boardC8) [] (4, 4) = 1 := by decide

theorem removeFirst_sublist (v : Nat) (l : List Nat) : List.Sublist (removeFirst v l) l := by
  induction l with
  | nil => exact List.Sublist.refl []
  | cons x xs ih =>
    unfold removeFirst
    by_cases hx : x = v
    · rw [if_pos hx]
      exact List.sublist_cons_self x xs
    · rw [if_neg hx]
      exact List.Sublist.cons₂ x ih

theorem foldl_removeFirst_sublist (rm : List Nat) (l : List Nat) :
    List.Sublist (rm.foldl (fun l w => removeFirst w l) l) l := by
  induction rm generalizing l with
  | nil => exact List.Sublist.refl l
  | cons w rm ih =>
    rw [List.foldl_cons]
    exact (ih (removeFirst w l)).trans (removeFirst_sublist w l)

theorem inferenceGo_frame_shrink (value : Nat) (L : List (Pos × Nat))
    (doms : List (Pos × List Nat)) :
    (∀ p : Pos, p ∉ L.map Prod.fst →
      dlookup p (inferenceGo value L doms).2 = dlookup p doms) ∧
    (∀ (p : Pos) (l2 : List Nat), dlookup p (inferenceGo value L doms).2 = some l2 →
      ∃ l, dlookup p doms = some l ∧ List.Sublist l2 l) := by
  induction L generalizing doms with
  | nil =>
    exact ⟨fun p _ => rfl, fun p l2 h => ⟨l2, h, List.Sublist.refl l2⟩⟩
  | cons nc rest ih =>
    show (∀ p : Pos, _ → dlookup p (inferenceGo value (nc :: rest) doms).2 = _) ∧ _
    unfold inferenceGo
    cases hnc : dlookup nc.1 doms with
    | none =>
      refine ⟨fun p hp => (ih doms).1 p ?_, (ih doms).2⟩
      intro hmem
      exact hp (List.mem_cons_of_mem _ hmem)
    | some dl =>
      simp only
      set newdl := (dl.filter fun w => !satisfy_constraint value w nc.2).foldl
        (fun l w => removeFirst w l) dl with hnewdl
      have hsub : List.Sublist newdl dl := foldl_removeFirst_sublist _ dl
      have hstep : ∀ p : Pos, (dlookup p (dinsert nc.1 newdl doms) = dlookup p doms ∧ p ≠ nc.1) ∨
          (p = nc.1 ∧ dlookup p (dinsert nc.1 newdl doms) = some newdl) := by
        intro p
        by_cases hp : nc.1 = p
        · exact Or.inr ⟨hp.symm, by rw [dlookup_dinsert, if_pos hp]⟩
        · exact Or.inl ⟨by rw [dlookup_dinsert, if_neg hp], fun he => hp he.symm⟩
      by_cases hlen : newdl.length = 0
      · rw [if_pos hlen]
        constructor
        · intro p hp
          rcases hstep p with ⟨he, -⟩ | ⟨rfl, -⟩
          · exact he
          · exact absurd (show nc.1 ∈ (nc :: rest).map Prod.fst by
              rw [List.map_cons]; exact List.mem_cons_self _ _) hp
        · intro p l2 h2
          rcases hstep p with ⟨he, -⟩ | ⟨rfl, hv⟩
          · exact ⟨l2, by rw [← he]; exact h2, List.Sublist.refl l2⟩
          · rw [hv] at h2
            obtain rfl : newdl = l2 := Option.some.inj h2
            exact ⟨dl, hnc, hsub⟩
      · rw [if_neg hlen]
        constructor
        · intro p hp
          have hp1 : p ∉ rest.map Prod.fst := fun hm => hp (List.mem_cons_of_mem _ hm)
          rw [(ih (dinsert nc.1 newdl doms)).1 p hp1]
          rcases hstep p with ⟨he, -⟩ | ⟨rfl, -⟩
          · exact he
          · exact absurd (show nc.1 ∈ (nc :: rest).map Prod.fst by
              rw [List.map_cons]; exact List.mem_cons_self _ _) hp
        · intro p l2 h2
          obtain ⟨l3, h3, hsub3⟩ := (ih (dinsert nc.1 newdl doms)).2 p l2 h2
          rcases hstep p with ⟨he, -⟩ | ⟨rfl, hv⟩
          · exact ⟨l3, by rw [← he]; exact h3, hsub3⟩
          · rw [hv] at h3
            obtain rfl : newdl = l3 := Option.some.inj h3
            exact ⟨dl, hnc, hsub3.trans hsub⟩

/-- C7 amended: forward checking after assigning value to var touches only
the domains of var's constraint-map neighbors that have a domain entry:
every position outside the neighbor list keeps its domain unchanged, and
any changed entry only shrinks (the surviving values are a sublist of the
previous ones).  Neighbors that are currently assigned but began as
variables still have domain entries and are pruned like any other
neighbor (inference_prunes_assigned_neighbor_cex refutes the claim that
assigned neighbors are left unchanged). -/
theorem inference_frame_and_shrink (cs : List (Pos × List (Pos × Nat))) (var : Pos)
    (value : Nat) (doms : List (Pos × List Nat)) :
    (∀ p : Pos, p ∉ (dlookupD var cs []).map Prod.fst →
      dlookup p (inference cs var value doms).2 = dlookup p doms) ∧
    (∀ (p : Pos) (l2 : List Nat), dlookup p (inference cs var value doms).2 = some l2 →
      ∃ l, dlookup p doms = some l ∧ List.Sublist l2 l) :=
  inferenceGo_frame_shrink value (dlookupD var cs []) doms

/-! The two-variable search prefix on boardC7, replayed with the engine's
own functions: select picks (0,0), value 1 is assigned, forward checking
prunes (0,1) to [9]; then select picks (0,1), value 9 is assigned, and
forward checking prunes the domain of the already assigned (0,0). -/

def c7vars : List Pos := set_variables 9 9 boardC7

def c7cs : List (Pos × List (Pos × Nat)) := set_constraints 9 9 M0 M0 c7vars

def c7doms0 : List (Pos × List Nat) := set_domain c7cs boardC7 c7vars

def c7board1 : Board := setCell boardC7 0 0 1

def c7asg1 : List (Pos × Nat) := dinsert (0, 0) 1 []

def c7doms1 : List (Pos × List Nat) := (inference c7cs (0, 0) 1 c7doms0).2

set_option maxRecDepth 100000 in
/-- Counterexample to C7 as stated: in the genuine search prefix on
boardC7, after (0,0) is assigned 1, the step assigning 9 to (0,1) runs
inference((0,1), 9), which changes the domain of (0,0) from [1, 9] to [1]
even though (0,0) is assigned at that moment: the code only skips
neighbors with no domain entry (pre-filled cells), not assigned ones. -/
theorem inference_prunes_assigned_neighbor_cex :
    select_unassigned_variable c7vars c7doms0 c7cs [] = some (0, 0) ∧
    order_domain_values c7doms0 (0, 0) = [1, 9] ∧
    is_consistent c7cs boardC7 (0, 0) 1 = true ∧
    (inference c7cs (0, 0) 1 c7doms0).1 = true ∧
    select_unassigned_variable c7vars c7doms1 c7cs c7asg1 = some (0, 1) ∧
    order_domain_values c7doms1 (0, 1) = [9] ∧
    is_consistent c7cs c7board1 (0, 1) 9 = true ∧
    dcontains (0, 0) c7asg1 = true ∧
    ((0, 0) : Pos) ∈ (dlookupD (0, 1) c7cs []).map Prod.fst ∧
    dlookup (0, 0) c7doms1 = some [1, 9] ∧
    dlookup (0, 0) ((inference c7cs (0, 1) 9 c7doms1).2) = some [1] := by decide

set_option maxRecDepth 100000 in
/-- Witness for the amended C7: in the same state, the domain of the
non-neighbor pre-filled position (5,5) is untouched by inference. -/
theorem inference_frame_and_shrink_witness :
    dlookup (5, 5) ((inference c7cs (0, 1) 9 c7doms1).2) = dlookup (5, 5) c7doms1 :=
  (inference_frame_and_shrink c7cs (0, 1) 9 c7doms1).1 (5, 5) (by decide)

/-! Claim C6: backtrack_inference restores domains exactly. -/

theorem restore_merge_mem (backup cur : List Nat) (x : Nat) :
    x ∈ backup.foldl (fun c w => if w ∈ c then c else c ++ [w]) cur ↔
      x ∈ cur ∨ x ∈ backup := by
  induction backup generalizing cur with
  | nil => simp
  | cons w backup ih =>
    rw [List.foldl_cons]
    by_cases hw : w ∈ cur
    · rw [if_pos hw, ih]
      constructor
      · rintro (h | h)
        · exact Or.inl h
        · exact Or.inr (List.mem_cons_of_mem w h)
      · rintro (h | h)
        · exact Or.inl h
        · rcases List.mem_cons.mp h with rfl | h
          · exact Or.inl hw
          · exact Or.inr h
    · rw [if_neg hw, ih]
      constructor
      · rintro (h | h)
        · rcases List.mem_append.mp h with h | h
          · exact Or.inl h
          · exact Or.inr (by rw [List.mem_singleton.mp h]; exact List.mem_cons_self w backup)
        · exact Or.inr (List.mem_cons_of_mem w h)
      · rintro (h | h)
        · exact Or.inl (List.mem_append_left _ h)
        · rcases List.mem_cons.mp h with rfl | h
          · exact Or.inl (List.mem_append_right _ (List.mem_singleton_self x))
          · exact Or.inr h

theorem restore_merge_nodup (backup cur : List Nat) (h : cur.Nodup) :
    (backup.foldl (fun c w => if w ∈ c then c else c ++ [w]) cur).Nodup := by
  induction backup generalizing cur with
  | nil => exact h
  | cons w backup ih =>
    rw [List.foldl_cons]
    by_cases hw : w ∈ cur
    · rw [if_pos hw]; exact ih cur h
    · rw [if_neg hw]
      refine ih _ (List.Nodup.append h (List.nodup_singleton w) ?_)
      intro a ha hb
      rw [List.mem_singleton] at hb
      subst hb
      exact hw ha

theorem sortAsc_restore_eq (backup cur : List Nat)
    (hs : List.Sorted (· ≤ ·) backup) (hn : backup.Nodup)
    (hsub : List.Sublist cur backup) :
    sortAsc (backup.foldl (fun c w => if w ∈ c then c else c ++ [w]) cur) = backup := by
  have hnc : cur.Nodup := List.Nodup.sublist hsub hn
  have hperm : (backup.foldl (fun c w => if w ∈ c then c else c ++ [w]) cur).Perm backup := by
    rw [List.perm_ext_iff_of_nodup (restore_merge_nodup backup cur hnc) hn]
    intro a
    rw [restore_merge_mem]
    constructor
    · rintro (h | h)
      · exact hsub.subset h
      · exact h
    · exact fun h => Or.inr h
  refine List.eq_of_perm_of_sorted ((List.perm_insertionSort (· ≤ ·) _).trans hperm) ?_ hs
  exact List.sorted_insertionSort (· ≤ ·) _

theorem prepare_fold_lookup (doms : List (Pos × List Nat)) (L : List (Pos × Nat))
    (init : List (Pos × List Nat)) (p : Pos) :
    dlookup p (L.foldl (fun vd nc =>
      match dlookup nc.1 doms with
      | none => vd
      | some l => dinsert nc.1 l vd) init) =
      if p ∈ L.map Prod.fst ∧ (dlookup p doms).isSome = true then dlookup p doms
      else dlookup p init := by
  induction L generalizing init with
  | nil => simp
  | cons nc rest ih =>
    rw [List.foldl_cons]
    cases hnc : dlookup nc.1 doms with
    | none =>
      rw [ih init, List.map_cons]
      by_cases hp : nc.1 = p
      · subst hp
        rw [hnc]
        simp
      · by_cases hrest : p ∈ rest.map Prod.fst ∧ (dlookup p doms).isSome = true
        · rw [if_pos hrest, if_pos ⟨List.mem_cons_of_mem _ hrest.1, hrest.2⟩]
        · rw [if_neg hrest, if_neg ?_]
          rintro ⟨hm, hsome⟩
          rcases List.mem_cons.mp hm with he | hm2
          · exact hp he.symm
          · exact hrest ⟨hm2, hsome⟩
    | some l =>
      rw [ih (dinsert nc.1 l init), List.map_cons]
      by_cases hp : nc.1 = p
      · subst hp
        rw [hnc]
        have hd : dlookup nc.1 (dinsert nc.1 l init) = some l := by
          rw [dlookup_dinsert, if_pos rfl]
        by_cases hrest : nc.1 ∈ rest.map Prod.fst ∧
            (some l : Option (List Nat)).isSome = true
        · rw [if_pos hrest, if_pos ⟨List.mem_cons_self _ _, by simp⟩]
        · rw [if_neg hrest, hd, if_pos ⟨List.mem_cons_self _ _, by simp⟩]
      · have hd : dlookup p (dinsert nc.1 l init) = dlookup p init := by
          rw [dlookup_dinsert, if_neg hp]
        rw [hd]
        by_cases hrest : p ∈ rest.map Prod.fst ∧ (dlookup p doms).isSome = true
        · rw [if_pos hrest, if_pos ⟨List.mem_cons_of_mem _ hrest.1, hrest.2⟩]
        · rw [if_neg hrest, if_neg ?_]
          rintro ⟨hm, hsome⟩
          rcases List.mem_cons.mp hm with he | hm2
          · exact hp he.symm
          · exact hrest ⟨hm2, hsome⟩

theorem restore_fold_lookup (doms varD : List (Pos × List Nat)) (L : List (Pos × Nat))
    (cur : List (Pos × List Nat))
    (hsorted : ∀ e ∈ doms, List.Sorted (· ≤ ·) e.2 ∧ e.2.Nodup)
    (hvarD : ∀ nbr ∈ L.map Prod.fst, (dlookup nbr doms).isSome = true →
      dlookup nbr varD = dlookup nbr doms)
    (hcurr : ∀ p : Pos,
      (p ∈ L.map Prod.fst →
        dlookup p cur = dlookup p doms ∨
        ∃ l l2, dlookup p doms = some l ∧ dlookup p cur = some l2 ∧ List.Sublist l2 l) ∧
      (p ∉ L.map Prod.fst → dlookup p cur = dlookup p doms)) :
    ∀ p : Pos, dlookup p (L.foldl (fun domains nc =>
      match dlookup nc.1 domains with
      | none => domains
      | some c =>
        dinsert nc.1 (sortAsc ((dlookupD nc.1 varD []).foldl
          (fun c2 w => if w ∈ c2 then c2 else c2 ++ [w]) c)) domains) cur) =
      dlookup p doms := by
  induction L generalizing cur with
  | nil =>
    intro p
    exact (hcurr p).2 (by simp)
  | cons nc rest ih =>
    rw [List.foldl_cons]
    cases hcn : dlookup nc.1 cur with
    | none =>
      have hdn : dlookup nc.1 doms = none := by
        rcases (hcurr nc.1).1 (by rw [List.map_cons]; exact List.mem_cons_self _ _) with he |
          ⟨l, l2, -, hc2, -⟩
        · rw [← he, hcn]
        · rw [hcn] at hc2; cases hc2
      refine ih cur ?_ ?_
      · intro nbr hm hsome
        exact hvarD nbr (by rw [List.map_cons]; exact List.mem_cons_of_mem _ hm) hsome
      · intro p
        constructor
        · intro hm
          exact ((hcurr p).1 (by rw [List.map_cons]; exact List.mem_cons_of_mem _ hm))
        · intro hm
          by_cases hp : nc.1 = p
          · subst hp
            rw [hcn, hdn]
          · refine (hcurr p).2 ?_
            rw [List.map_cons]
            intro hmm
            rcases List.mem_cons.mp hmm with he | hmm2
            · exact hp he.symm
            · exact hm hmm2
    | some curV =>
      have hrel : ∃ l, dlookup nc.1 doms = some l ∧ List.Sublist curV l := by
        rcases (hcurr nc.1).1 (by rw [List.map_cons]; exact List.mem_cons_self _ _) with he |
          ⟨l, l2, hd, hc2, hsub⟩
        · exact ⟨curV, by rw [← he, hcn], List.Sublist.refl curV⟩
        · rw [hcn] at hc2
          obtain rfl : curV = l2 := Option.some.inj hc2
          exact ⟨l, hd, hsub⟩
      obtain ⟨l, hdl, hsub⟩ := hrel
      have hback : dlookupD nc.1 varD [] = l := by
        unfold dlookupD
        rw [hvarD nc.1 (by rw [List.map_cons]; exact List.mem_cons_self _ _) (by rw [hdl]; rfl),
          hdl]
        rfl
      obtain ⟨hls, hln⟩ := hsorted (nc.1, l) (dlookup_mem hdl)
      have hrestore : sortAsc ((dlookupD nc.1 varD []).foldl
          (fun c2 w => if w ∈ c2 then c2 else c2 ++ [w]) curV) = l := by
        rw [hback]
        exact sortAsc_restore_eq l curV hls hln hsub
      show ∀ p : Pos, dlookup p (rest.foldl (fun domains nc =>
          match dlookup nc.1 domains with
          | none => domains
          | some c =>
            dinsert nc.1 (sortAsc ((dlookupD nc.1 varD []).foldl
              (fun c2 w => if w ∈ c2 then c2 else c2 ++ [w]) c)) domains)
          (dinsert nc.1 (sortAsc ((dlookupD nc.1 varD []).foldl
            (fun c2 w => if w ∈ c2 then c2 else c2 ++ [w]) curV)) cur)) = dlookup p doms
      rw [hrestore]
      refine ih (dinsert nc.1 l cur) ?_ ?_
      · intro nbr hm hsome
        exact hvarD nbr (by rw [List.map_cons]; exact List.mem_cons_of_mem _ hm) hsome
      · intro p
        by_cases hp : nc.1 = p
        · subst hp
          constructor
          · intro _
            exact Or.inl (by rw [dlookup_dinsert, if_pos rfl, hdl])
          · intro _
            rw [dlookup_dinsert, if_pos rfl, hdl]
        · have hl2 : dlookup p (dinsert nc.1 l cur) = dlookup p cur := by
            rw [dlookup_dinsert, if_neg hp]
          constructor
          · intro hm
            rw [hl2]
            exact (hcurr p).1 (by rw [List.map_cons]; exact List.mem_cons_of_mem _ hm)
          · intro hm
            rw [hl2]
            refine (hcurr p).2 ?_
            rw [List.map_cons]
            intro hmm
            rcases List.mem_cons.mp hmm with he | hmm2
            · exact hp he.symm
            · exact hm hmm2

/-- C6: exact domain restoration.  Let doms be the domain map immediately
before prepare_inference(var) and the forward-checking inference; let
doms1 be the domain map when the matching backtrack_inference(var, ...)
runs, where (as in the engine) pruning has only shrunk entries of doms
(each surviving entry is a sublist of its old value, keys unchanged), any
intervening recursive search has likewise undone its own mutations, and
positions outside var's neighbor list are untouched.  With every entry of
doms sorted ascending without duplicates (the engine's standing domain
invariant), backtrack_inference with the prepare_inference snapshot
restores every variable's domain to its exact contents in doms: same
values, no duplicates, ascending order. -/
theorem backtrack_inference_restores (cs : List (Pos × List (Pos × Nat))) (var : Pos)
    (doms doms1 : List (Pos × List Nat))
    (hsorted : ∀ e ∈ doms, List.Sorted (· ≤ ·) e.2 ∧ e.2.Nodup)
    (hkeys : ∀ e ∈ doms, (dlookup e.1 doms1).isSome = true)
    (hshrink : ∀ e ∈ doms1, (dlookup e.1 doms).isSome = true ∧
      List.Sublist e.2 ((dlookup e.1 doms).getD []))
    (hframe : ∀ p ∈ dkeys doms ++ dkeys doms1,
      p ∉ (dlookupD var cs []).map Prod.fst → dlookup p doms1 = dlookup p doms) :
    ∀ p : Pos,
      dlookup p (backtrack_inference cs var (prepare_inference cs doms var) doms1) =
        dlookup p doms := by
  have hvarD : ∀ nbr ∈ (dlookupD var cs []).map Prod.fst,
      (dlookup nbr doms).isSome = true →
      dlookup nbr (prepare_inference cs doms var) = dlookup nbr doms := by
    intro nbr hm hsome
    have hpre := prepare_fold_lookup doms (dlookupD var cs []) [] nbr
    rw [if_pos ⟨hm, hsome⟩] at hpre
    exact hpre
  have hcurr : ∀ p : Pos,
      (p ∈ (dlookupD var cs []).map Prod.fst →
        dlookup p doms1 = dlookup p doms ∨
        ∃ l l2, dlookup p doms = some l ∧ dlookup p doms1 = some l2 ∧ List.Sublist l2 l) ∧
      (p ∉ (dlookupD var cs []).map Prod.fst → dlookup p doms1 = dlookup p doms) := by
    intro p
    constructor
    · intro _
      cases hl : dlookup p doms1 with
      | none =>
        cases hd : dlookup p doms with
        | none => exact Or.inl rfl
        | some l =>
          have := hkeys (p, l) (dlookup_mem hd)
          rw [hl] at this
          cases this
      | some l2 =>
        obtain ⟨hsome, hsub⟩ := hshrink (p, l2) (dlookup_mem hl)
        obtain ⟨l, hdl⟩ := Option.isSome_iff_exists.mp hsome
        refine Or.inr ⟨l, l2, hdl, rfl, ?_⟩
        rw [hdl] at hsub
        exact hsub
    · intro hm
      by_cases hmd : p ∈ dkeys doms ++ dkeys doms1
      · exact hframe p hmd hm
      · rw [List.mem_append] at hmd
        push_neg at hmd
        have h1 : dlookup p doms = none := by
          by_contra hne
          exact hmd.1 ((mem_dkeys_iff p doms).mpr hne)
        have h2 : dlookup p doms1 = none := by
          by_contra hne
          exact hmd.2 ((mem_dkeys_iff p doms1).mpr hne)
        rw [h1, h2]
  exact restore_fold_lookup doms (prepare_inference cs doms var) (dlookupD var cs []) doms1
    hsorted hvarD hcurr

/-- The small concrete state used to witness C6: one variable (0,0) with
two neighbors, both pruned by inference((0,0), 2). -/
def c6cs : List (Pos × List (Pos × Nat)) := [((0, 0), [((0, 1), 3), ((0, 2), 3)])]

def c6doms : List (Pos × List Nat) := [((0, 0), [1, 2]), ((0, 1), [1, 2]), ((0, 2), [2, 9])]

def c6doms1 : List (Pos × List Nat) := (inference c6cs (0, 0) 2 c6doms).2

/-- Witness for C6 at the concrete pruned state: the domain of (0,1) is
restored to its pre-inference contents. -/
theorem backtrack_inference_restores_witness :
    dlookup (0, 1) (backtrack_inference c6cs (0, 0)
      (prepare_inference c6cs c6doms (0, 0)) c6doms1) = dlookup (0, 1) c6doms :=
  backtrack_inference_restores c6cs (0, 0) c6doms c6doms1
    (by decide) (by decide) (by decide) (by decide) (0, 1)

/-! Claim C10: the fueled search always terminates with enough fuel. -/

theorem select_mem (vars : List Pos) (domains : List (Pos × List Nat))
    (cs : List (Pos × List (Pos × Nat))) (assignment : List (Pos × Nat)) (v : Pos)
    (h : select_unassigned_variable vars domains cs assignment = some v) :
    v ∈ vars ∧ dcontains v assignment = false := by
  obtain ⟨hm, -⟩ := select_spec_aux vars domains cs assignment v h
  have hm2 := (List.mem_filter.mp hm).1
  have hm3 := List.mem_filter.mp hm2
  exact ⟨hm3.1, by simpa using hm3.2⟩

theorem select_isSome (vars : List Pos) (domains : List (Pos × List Nat))
    (cs : List (Pos × List (Pos × Nat))) (assignment : List (Pos × Nat))
    (hne : ∃ u ∈ vars, dcontains u assignment = false) :
    (select_unassigned_variable vars domains cs assignment).isSome = true := by
  obtain ⟨u, hu, hc⟩ := hne
  have humem : u ∈ vars.filter fun w => !dcontains w assignment :=
    List.mem_filter.mpr ⟨hu, by rw [hc]; rfl⟩
  unfold select_unassigned_variable
  cases hcase : vars.filter fun w => !dcontains w assignment with
  | nil => rw [hcase] at humem; cases humem
  | cons w rest =>
    simp only
    have hminmem : pyMin ((w :: rest).map fun x => (dlookupD x domains []).length) ∈
        (w :: rest).map fun x => (dlookupD x domains []).length :=
      pyMin_mem _ (by simp)
    obtain ⟨x, hx, hxe⟩ := List.mem_map.mp hminmem
    have hxmem : x ∈ (w :: rest).filter fun y => (dlookupD y domains []).length ==
        pyMin ((w :: rest).map fun z => (dlookupD z domains []).length) :=
      List.mem_filter.mpr ⟨hx, by rw [beq_iff_eq]; exact hxe⟩
    by_cases hlen : ((w :: rest).filter fun y => (dlookupD y domains []).length ==
        pyMin ((w :: rest).map fun z => (dlookupD z domains []).length)).length = 1
    · rw [if_pos hlen]
      cases hfe : (w :: rest).filter fun y => (dlookupD y domains []).length ==
          pyMin ((w :: rest).map fun z => (dlookupD z domains []).length) with
      | nil => rw [hfe] at hxmem; cases hxmem
      | cons a rest2 => rfl
    · rw [if_neg hlen]
      cases hfe : (w :: rest).filter fun y => (dlookupD y domains []).length ==
          pyMin ((w :: rest).map fun z => (dlookupD z domains []).length) with
      | nil => rw [hfe] at hxmem; cases hxmem
      | cons a rest2 => rfl

theorem tryValuesWith_total (recur : SState → Option (Option Board × SState))
    (cs : List (Pos × List (Pos × Nat))) (var : Pos) (st : SState)
    (hvar : var ∉ dkeys st.assignment)
    (hrec : ∀ (st1 : SState) (value : Nat),
      st1.assignment = dinsert var value st.assignment →
      ∃ out st2, recur st1 = some (out, st2) ∧
        (out = none → st2.assignment = st1.assignment)) :
    ∀ (values : List Nat) (stc : SState), stc.assignment = st.assignment →
      ∃ out st2, tryValuesWith recur cs var values stc = some (out, st2) ∧
        (out = none → st2.assignment = st.assignment) := by
  have hdel : ∀ value : Nat, ddel var (dinsert var value st.assignment) = st.assignment := by
    intro value
    rw [dinsert_of_not_mem value hvar, ddel_append_single value hvar]
  intro values
  induction values with
  | nil =>
    intro stc hstc
    exact ⟨none, stc, rfl, fun _ => hstc⟩
  | cons value rest ih =>
    intro stc hstc
    unfold tryValuesWith
    by_cases hcons : is_consistent cs stc.board var value = true
    · rw [if_pos hcons]
      by_cases hinf : (inference cs var value stc.domains).1 = true
      · rw [if_pos hinf]
        obtain ⟨out, st2, hr, hrest⟩ := hrec
          ⟨setCell stc.board var.1 var.2 value, (inference cs var value stc.domains).2,
            dinsert var value stc.assignment⟩ value (by simp only; rw [hstc])
        rw [hr]
        cases out with
        | some sol =>
          exact ⟨some sol, st2, rfl, fun h => nomatch h⟩
        | none =>
          have hst2 : st2.assignment = dinsert var value st.assignment := by
            rw [hrest rfl]
            simp only
            rw [hstc]
          obtain ⟨out3, st3, he3, hr3⟩ := ih
            ⟨setCell st2.board var.1 var.2 0,
              backtrack_inference cs var (prepare_inference cs stc.domains var) st2.domains,
              ddel var st2.assignment⟩ (by simp only; rw [hst2, hdel value])
          exact ⟨out3, st3, he3, hr3⟩
      · rw [if_neg hinf]
        obtain ⟨out3, st3, he3, hr3⟩ := ih
          ⟨setCell (setCell stc.board var.1 var.2 value) var.1 var.2 0,
            backtrack_inference cs var (prepare_inference cs stc.domains var)
              (inference cs var value stc.domains).2,
            ddel var (dinsert var value stc.assignment)⟩
          (by simp only; rw [hstc, hdel value])
        exact ⟨out3, st3, he3, hr3⟩
    · rw [if_neg hcons]
      exact ih stc hstc

theorem backtrackF_total (vars : List Pos) (cs : List (Pos × List (Pos × Nat)))
    (hvars : vars.Nodup) :
    ∀ (fuel : Nat) (st : SState),
      (dkeys st.assignment).Nodup →
      (∀ p ∈ dkeys st.assignment, p ∈ vars) →
      vars.length + 1 ≤ fuel + st.assignment.length →
      ∃ out st2, backtrackF vars cs fuel st = some (out, st2) ∧
        (out = none → st2.assignment = st.assignment) := by
  intro fuel
  induction fuel with
  | zero =>
    intro st hnd hsub hfuel
    have hle : (dkeys st.assignment).length ≤ vars.length :=
      nodup_subset_length_le hnd hsub
    rw [dkeys_length] at hle
    omega
  | succ fuel ih =>
    intro st hnd hsub hfuel
    unfold backtrackF
    by_cases hdone : vars.length = st.assignment.length
    · rw [if_pos hdone]
      exact ⟨some st.board, st, rfl, fun h => nomatch h⟩
    · rw [if_neg hdone]
      have hlt : st.assignment.length < vars.length := by
        have hle : (dkeys st.assignment).length ≤ vars.length :=
          nodup_subset_length_le hnd hsub
        rw [dkeys_length] at hle
        omega
      have hex : ∃ u ∈ vars, dcontains u st.assignment = false := by
        by_contra hno
        push_neg at hno
        have hsub2 : ∀ u ∈ vars, u ∈ dkeys st.assignment := by
          intro u hu
          have hnee := hno u hu
          have hb : dcontains u st.assignment = true := by
            cases hb2 : dcontains u st.assignment with
            | false => exact absurd hb2 hnee
            | true => rfl
          exact (dcontains_eq_true_iff u st.assignment).mp hb
        have := nodup_subset_length_le hvars hsub2
        rw [dkeys_length] at this
        omega
      have hsome := select_isSome vars st.domains cs st.assignment hex
      obtain ⟨var, hsel⟩ := Option.isSome_iff_exists.mp hsome
      rw [hsel]
      obtain ⟨hvmem, hvcon⟩ := select_mem vars st.domains cs st.assignment var hsel
      have hvkeys : var ∉ dkeys st.assignment := by
        intro hmem
        have hb : dcontains var st.assignment = true :=
          (dcontains_eq_true_iff var st.assignment).mpr hmem
        rw [hvcon] at hb
        cases hb
      refine tryValuesWith_total (backtrackF vars cs fuel) cs var st hvkeys ?_
        (order_domain_values st.domains var) st rfl
      intro st1 value hasg
      have hkeys1 : dkeys st1.assignment = dkeys st.assignment ++ [var] := by
        rw [hasg, dinsert_of_not_mem value hvkeys]
        unfold dkeys
        rw [List.map_append]
        rfl
      refine ih st1 ?_ ?_ ?_
      · rw [hkeys1]
        refine List.Nodup.append hnd (List.nodup_singleton var) ?_
        intro a ha hb
        rw [List.mem_singleton] at hb
        subst hb
        exact hvkeys ha
      · intro p hp
        rw [hkeys1, List.mem_append] at hp
        rcases hp with hp | hp
        · exact hsub p hp
        · rw [List.mem_singleton] at hp
          subst hp
          exact hvmem
      · have hlen1 : st1.assignment.length = st.assignment.length + 1 := by
          rw [hasg, length_dinsert_fresh value hvkeys]
        omega

theorem mem_gridPositions (p : Pos) : p ∈ gridPositions ↔ inGrid p := by
  obtain ⟨r, c⟩ := p
  unfold gridPositions inGrid
  simp only [List.mem_flatMap, List.mem_map, List.mem_range, Prod.mk.injEq]
  constructor
  · rintro ⟨i, hi, j, hj, rfl, rfl⟩
    exact ⟨hi, hj⟩
  · rintro ⟨h1, h2⟩
    exact ⟨r, h1, c, h2, rfl, rfl⟩

/-- C10: the search terminates.  Each recursive call inserts the selected
variable (not yet in the assignment) into the assignment, so depth is
bounded by the number of unassigned cells: there are at most 81 variables,
and with fuel one more than the variable count the fueled backtrack never
exhausts its fuel on any branch: it returns an explicit result (a board or
None) for every well-formed input, starting from the empty assignment. -/
theorem backtrack_terminates (board H V : Board) :
    (set_variables 9 9 board).length ≤ 81 ∧
    ∃ out st2,
      backtrackF (set_variables 9 9 board)
        (set_constraints 9 9 H V (set_variables 9 9 board))
        ((set_variables 9 9 board).length + 1)
        ⟨board,
          set_domain (set_constraints 9 9 H V (set_variables 9 9 board)) board
            (set_variables 9 9 board), []⟩ =
      some (out, st2) := by
  constructor
  · have hsub : set_variables 9 9 board ⊆ gridPositions := by
      intro p hp
      rw [mem_gridPositions]
      obtain ⟨h1, h2, -⟩ := (mem_set_variables board p).mp hp
      exact ⟨h1, h2⟩
    have := nodup_subset_length_le (set_variables_nodup board) hsub
    simpa using this
  · obtain ⟨out, st2, he, -⟩ := backtrackF_total (set_variables 9 9 board)
      (set_constraints 9 9 H V (set_variables 9 9 board)) (set_variables_nodup board)
      ((set_variables 9 9 board).length + 1)
      ⟨board,
        set_domain (set_constraints 9 9 H V (set_variables 9 9 board)) board
          (set_variables 9 9 board), []⟩
      List.nodup_nil (by intro p hp; cases hp) (by simp)
    exact ⟨out, st2, he⟩

/-! Claim C1: machinery for the soundness of the returned boards. -/

theorem getD_set_eq {α : Type} (l : List α) (i : Nat) (v d : α) (h : i < l.length) :
    (l.set i v).getD i d = v := by
  induction l generalizing i with
  | nil => cases h
  | cons x xs ih =>
    cases i with
    | zero => rfl
    | succ n => exact ih n (by simpa using h)

theorem getD_set_ne {α : Type} (l : List α) (i j : Nat) (v d : α) (h : i ≠ j) :
    (l.set i v).getD j d = l.getD j d := by
  induction l generalizing i j with
  | nil => rfl
  | cons x xs ih =>
    cases i with
    | zero =>
      cases j with
      | zero => exact absurd rfl h
      | succ m => rfl
    | succ n =>
      cases j with
      | zero => rfl
      | succ m => exact ih n m (fun he => h (by rw [he]))

theorem getD_mem {α : Type} (l : List α) (i : Nat) (d : α) (h : i < l.length) :
    l.getD i d ∈ l := by
  induction l generalizing i with
  | nil => cases h
  | cons x xs ih =>
    cases i with
    | zero => exact List.mem_cons_self x xs
    | succ n => exact List.mem_cons_of_mem x (ih n (by simpa using h))

theorem cell_setCell_same (b : Board) (r c v : Nat) (hdims : BoardDims b)
    (hr : r < 9) (hc : c < 9) : cell (setCell b r c v) r c = v := by
  unfold cell setCell
  rw [getD_set_eq _ _ _ _ (by rw [hdims.1]; exact hr)]
  rw [getD_set_eq _ _ _ _ ?_]
  rw [hdims.2 (b.getD r []) (getD_mem b r [] (by rw [hdims.1]; exact hr))]
  exact hc

theorem cell_setCell_other (b : Board) (r c v r1 c1 : Nat)
    (h : ¬ (r = r1 ∧ c = c1)) : cell (setCell b r c v) r1 c1 = cell b r1 c1 := by
  unfold cell setCell
  by_cases hr : r = r1
  · subst hr
    have hc : c ≠ c1 := fun he => h ⟨rfl, he⟩
    by_cases hrl : r < b.length
    · rw [getD_set_eq _ _ _ _ hrl, getD_set_ne _ _ _ _ _ hc]
    · rw [List.set_eq_of_length_le (by omega)]
  · rw [getD_set_ne _ _ _ _ _ hr]

theorem cell_setCell_self_cases (b : Board) (r c v : Nat) :
    cell (setCell b r c v) r c = v ∨ cell (setCell b r c v) r c = cell b r c := by
  unfold cell setCell
  by_cases hrl : r < b.length
  · rw [getD_set_eq _ _ _ _ hrl]
    by_cases hcl : c < (b.getD r []).length
    · exact Or.inl (getD_set_eq _ _ _ _ hcl)
    · refine Or.inr ?_
      rw [List.set_eq_of_length_le (by omega)]
  · rw [List.set_eq_of_length_le (by omega)]
    exact Or.inr rfl

theorem BoardDims_setCell (b : Board) (hdims : BoardDims b) (r c v : Nat) :
    BoardDims (setCell b r c v) := by
  unfold setCell
  constructor
  · rw [List.length_set]
    exact hdims.1
  · intro row hrow
    by_cases hrl : r < b.length
    · rcases List.mem_or_eq_of_mem_set hrow with hm | he
      · exact hdims.2 row hm
      · rw [he, List.length_set]
        exact hdims.2 _ (getD_mem b r [] hrl)
    · rw [List.set_eq_of_length_le (by omega)] at hrow
      exact hdims.2 row hrow

theorem le9_setCell (b : Board) (hle : ∀ r < 9, ∀ c < 9, cell b r c ≤ 9)
    (r c v : Nat) (hv : v ≤ 9) : ∀ r1 < 9, ∀ c1 < 9, cell (setCell b r c v) r1 c1 ≤ 9 := by
  intro r1 h1 c1 h2
  by_cases he : r = r1 ∧ c = c1
  · obtain ⟨rfl, rfl⟩ := he
    rcases cell_setCell_self_cases b r c v with hc | hc
    · rw [hc]; exact hv
    · rw [hc]; exact hle r h1 c h2
  · rw [cell_setCell_other b r c v r1 c1 he]
    exact hle r1 h1 c1 h2

theorem DomsLE9_set_domain (cs : List (Pos × List (Pos × Nat))) (board : Board)
    (vars : List Pos) : DomsLE9 (set_domain cs board vars) := by
  intro p l hl v hv
  rw [dlookup_set_domain] at hl
  by_cases hp : p ∈ vars
  · rw [if_pos hp] at hl
    obtain rfl : _ = l := Option.some.inj hl
    obtain ⟨hv2, -⟩ := List.mem_filter.mp hv
    rw [List.mem_range'] at hv2
    omega
  · rw [if_neg hp] at hl
    cases hl

theorem DomsLE9_inference (cs : List (Pos × List (Pos × Nat))) (var : Pos) (value : Nat)
    (doms : List (Pos × List Nat)) (h : DomsLE9 doms) :
    DomsLE9 (inference cs var value doms).2 := by
  intro p l hl v hv
  obtain ⟨l0, hl0, hsub⟩ := (inferenceGo_frame_shrink value (dlookupD var cs []) doms).2 p l hl
  exact h p l0 hl0 v (hsub.subset hv)

theorem DomsLE9_prepare (cs : List (Pos × List (Pos × Nat))) (var : Pos)
    (doms : List (Pos × List Nat)) (h : DomsLE9 doms) :
    DomsLE9 (prepare_inference cs doms var) := by
  intro p l hl v hv
  have hpre := prepare_fold_lookup doms (dlookupD var cs []) [] p
  by_cases hc : p ∈ (dlookupD var cs []).map Prod.fst ∧ (dlookup p doms).isSome = true
  · rw [if_pos hc] at hpre
    exact h p l (by rw [← hpre]; exact hl) v hv
  · rw [if_neg hc] at hpre
    rw [show prepare_inference cs doms var = (dlookupD var cs []).foldl (fun vd nc =>
      match dlookup nc.1 doms with
      | none => vd
      | some l => dinsert nc.1 l vd) [] from rfl] at hl
    rw [hpre] at hl
    cases hl

theorem DomsLE9_backtrack_inference (cs : List (Pos × List (Pos × Nat))) (var : Pos)
    (varD doms1 : List (Pos × List Nat)) (h1 : DomsLE9 varD) (h2 : DomsLE9 doms1) :
    DomsLE9 (backtrack_inference cs var varD doms1) := by
  have hback : ∀ (nbr : Pos) (v : Nat), v ∈ dlookupD nbr varD [] → 1 ≤ v ∧ v ≤ 9 := by
    intro nbr v hv
    unfold dlookupD at hv
    cases hb : dlookup nbr varD with
    | none => rw [hb] at hv; cases hv
    | some lb =>
      rw [hb] at hv
      exact h1 nbr lb hb v hv
  show DomsLE9 ((dlookupD var cs []).foldl _ doms1)
  generalize (dlookupD var cs []) = L
  induction L generalizing doms1 with
  | nil => exact h2
  | cons nc rest ih =>
    rw [List.foldl_cons]
    cases hcn : dlookup nc.1 doms1 with
    | none =>
      refine ih doms1 h2
    | some curV =>
      refine ih (dinsert nc.1 (sortAsc ((dlookupD nc.1 varD []).foldl
        (fun c2 w => if w ∈ c2 then c2 else c2 ++ [w]) curV)) doms1) ?_
      intro p l hl v hv
      rw [dlookup_dinsert] at hl
      by_cases hp : nc.1 = p
      · rw [if_pos hp] at hl
        obtain rfl : _ = l := Option.some.inj hl
        have hv2 : v ∈ (dlookupD nc.1 varD []).foldl
            (fun c2 w => if w ∈ c2 then c2 else c2 ++ [w]) curV := by
          have := (List.perm_insertionSort (· ≤ ·) ((dlookupD nc.1 varD []).foldl
            (fun c2 w => if w ∈ c2 then c2 else c2 ++ [w]) curV)).mem_iff.mp hv
          exact this
        rcases (restore_merge_mem _ _ v).mp hv2 with hv3 | hv3
        · exact h2 nc.1 curV hcn v hv3
        · exact hback nc.1 v hv3
      · rw [if_neg hp] at hl
        exact h2 p l hl v hv

theorem pos_ext {p q : Pos} (h1 : p.1 = q.1) (h2 : p.2 = q.2) : p = q := by
  obtain ⟨a, b⟩ := p
  obtain ⟨c, d⟩ := q
  simp only at h1 h2
  rw [h1, h2]

theorem peers_symm {p q : Pos} (h : peers p q) : peers q p := by
  obtain ⟨hp, hq, hne, hor⟩ := h
  refine ⟨hq, hp, fun he => hne he.symm, ?_⟩
  rcases hor with h1 | h1 | h1
  · exact Or.inl h1.symm
  · exact Or.inr (Or.inl h1.symm)
  · exact Or.inr (Or.inr ⟨h1.1.symm, h1.2.symm⟩)

theorem satisfy_ne (value w k : Nat) (hk : k = 1 ∨ k = 2 ∨ k = 3) (hw : w ≠ 0)
    (hs : satisfy_constraint value w k = true) : value ≠ w := by
  intro he
  subst he
  rcases hk with rfl | rfl | rfl
  · have hs1 : (if value = 0 then true
        else decide (((value : Int) - (value : Int)).natAbs = 1)) = true := hs
    rw [if_neg hw, decide_eq_true_eq] at hs1
    omega
  · have hs2 : (if value = 0 then true
        else decide (((max value value : Nat) : ℚ) /
          ((min value value : Nat) : ℚ) = 2)) = true := hs
    rw [if_neg hw, decide_eq_true_eq, Nat.max_self, Nat.min_self] at hs2
    rw [div_self (Nat.cast_ne_zero.mpr hw)] at hs2
    norm_num at hs2
  · have hs3 : (if value = 0 then true else decide (¬ value = value)) = true := hs
    rw [if_neg hw, decide_eq_true_eq] at hs3
    exact hs3 rfl

theorem valid_setCell_zero (b : Board) (hvalid : ValidCells b) (r c : Nat) :
    ValidCells (setCell b r c 0) := by
  have hcase : ∀ u : Pos, cell (setCell b r c 0) u.1 u.2 = 0 ∨
      cell (setCell b r c 0) u.1 u.2 = cell b u.1 u.2 := by
    intro u
    obtain ⟨ur, uc⟩ := u
    by_cases hu : r = ur ∧ c = uc
    · obtain ⟨rfl, rfl⟩ := hu
      exact cell_setCell_self_cases b r c 0
    · exact Or.inr (cell_setCell_other b r c 0 ur uc hu)
  intro p hp q hq hpq hnp hnq
  rcases hcase p with h1 | h1
  · exact absurd h1 hnp
  · rcases hcase q with h2 | h2
    · exact absurd h2 hnq
    · rw [h1] at hnp ⊢
      rw [h2] at hnq ⊢
      exact hvalid p hp q hq hpq hnp hnq

theorem valid_after_assign (H V : Board) (hH : MarkerWF H) (hV : MarkerWF V)
    (vars : List Pos) (board : Board) (hdims : BoardDims board)
    (hvalid : ValidCells board) (var : Pos) (hvar : var ∈ vars) (hg : inGrid var)
    (value : Nat)
    (hcons : is_consistent (set_constraints 9 9 H V vars) board var value = true) :
    ValidCells (setCell board var.1 var.2 value) := by
  have hkey : ∀ q : Pos, peers var q → cell board q.1 q.2 ≠ 0 →
      value ≠ cell board q.1 q.2 := by
    intro q hpq hq0
    have hlook1 : dlookup var (set_constraints 9 9 H V vars) =
        some (constraintsFor 9 9 H V var) := by
      rw [dlookup_set_constraints, if_pos hvar]
    have hD : dlookupD var (set_constraints 9 9 H V vars) [] =
        constraintsFor 9 9 H V var := by
      unfold dlookupD
      rw [hlook1]
      rfl
    have hlookq := constraintsFor_lookup H V var q hg
    unfold is_consistent at hcons
    rw [hD, List.all_eq_true] at hcons
    by_cases hadj : orthAdj var q ∧ adjMarker H V var q ≠ 0
    · rw [if_pos hadj] at hlookq
      have hmem := dlookup_mem hlookq
      have hsat : satisfy_constraint value (cell board q.1 q.2)
          (adjMarker H V var q) = true := hcons ⟨q, adjMarker H V var q⟩ hmem
      have hle2 : adjMarker H V var q ≤ 2 := adjMarker_le_two hH hV hg hpq.2.1
      have hk : adjMarker H V var q = 1 ∨ adjMarker H V var q = 2 ∨
          adjMarker H V var q = 3 := by omega
      exact satisfy_ne value (cell board q.1 q.2) _ hk hq0 hsat
    · rw [if_neg hadj, if_pos hpq] at hlookq
      have hmem := dlookup_mem hlookq
      have hsat : satisfy_constraint value (cell board q.1 q.2) 3 = true :=
        hcons ⟨q, 3⟩ hmem
      exact satisfy_ne value (cell board q.1 q.2) 3 (Or.inr (Or.inr rfl)) hq0 hsat
  intro p hp q hq hpq hnp hnq
  by_cases hpv : p = var
  · subst hpv
    have hqv : q ≠ p := fun he => (peers_irrefl p) (he ▸ hpq)
    have hcp : cell (setCell board p.1 p.2 value) p.1 p.2 = value :=
      cell_setCell_same board p.1 p.2 value hdims hg.1 hg.2
    have hcq : cell (setCell board p.1 p.2 value) q.1 q.2 = cell board q.1 q.2 := by
      refine cell_setCell_other board p.1 p.2 value q.1 q.2 ?_
      rintro ⟨h1, h2⟩
      exact hqv (pos_ext h1 h2).symm
    rw [hcq] at hnq
    rw [hcp, hcq]
    exact hkey q hpq hnq
  · by_cases hqv : q = var
    · subst hqv
      have hcq2 : cell (setCell board q.1 q.2 value) q.1 q.2 = value :=
        cell_setCell_same board q.1 q.2 value hdims hg.1 hg.2
      have hcp : cell (setCell board q.1 q.2 value) p.1 p.2 = cell board p.1 p.2 := by
        refine cell_setCell_other board q.1 q.2 value p.1 p.2 ?_
        rintro ⟨h1, h2⟩
        exact hpv (pos_ext h1 h2).symm
      rw [hcp] at hnp
      rw [hcp, hcq2]
      exact fun he => hkey p (peers_symm hpq) hnp he.symm
    · have hcp : cell (setCell board var.1 var.2 value) p.1 p.2 =
          cell board p.1 p.2 := by
        refine cell_setCell_other board var.1 var.2 value p.1 p.2 ?_
        rintro ⟨h1, h2⟩
        exact hpv (pos_ext h1 h2).symm
      have hcq : cell (setCell board var.1 var.2 value) q.1 q.2 =
          cell board q.1 q.2 := by
        refine cell_setCell_other board var.1 var.2 value q.1 q.2 ?_
        rintro ⟨h1, h2⟩
        exact hqv (pos_ext h1 h2).symm
      rw [hcp] at hnp
      rw [hcq] at hnq
      rw [hcp, hcq]
      exact hvalid p hp q hq hpq hnp hnq

theorem DomsLE9_lookupD {d : List (Pos × List Nat)} (h : DomsLE9 d) (p : Pos) :
    ∀ v ∈ dlookupD p d [], 1 ≤ v ∧ v ≤ 9 := by
  intro v hv
  unfold dlookupD at hv
  cases hl : dlookup p d with
  | none => rw [hl] at hv; cases hv
  | some l => rw [hl] at hv; exact h p l hl v hv

/-- The search invariant maintained by backtrack on every reachable mutable
state: the board keeps its 9 by 9 shape, entries stay at most 9, no two
equal nonzero cells share a row, column or box, the domain map holds only
values 1..9, the assignment keys are distinct variables of the puzzle,
every assigned variable's cell is nonzero on the board, and cells that are
not variables still hold their original input value. -/
structure Inv (board0 : Board) (st : SState) : Prop where
  dims : BoardDims st.board
  le9 : BoardLE9 st.board
  valid : ValidCells st.board
  doms : DomsLE9 st.domains
  keysNodup : (dkeys st.assignment).Nodup
  keysSub : ∀ p ∈ dkeys st.assignment, p ∈ set_variables 9 9 board0
  assigned : ∀ p ∈ dkeys st.assignment, cell st.board p.1 p.2 ≠ 0
  frame : ∀ p : Pos, p ∉ set_variables 9 9 board0 →
    cell st.board p.1 p.2 = cell board0 p.1 p.2

theorem Inv_assign (board0 H V : Board) (hH : MarkerWF H) (hV : MarkerWF V)
    (st : SState) (hinv : Inv board0 st) (var : Pos)
    (hvar : var ∈ set_variables 9 9 board0) (hfresh : var ∉ dkeys st.assignment)
    (value : Nat) (hv1 : 1 ≤ value) (hv9 : value ≤ 9)
    (hcons : is_consistent (set_constraints 9 9 H V (set_variables 9 9 board0))
      st.board var value = true) :
    Inv board0 ⟨setCell st.board var.1 var.2 value,
      (inference (set_constraints 9 9 H V (set_variables 9 9 board0)) var value
        st.domains).2,
      dinsert var value st.assignment⟩ := by
  have hg : inGrid var := by
    obtain ⟨h1, h2, -⟩ := (mem_set_variables board0 var).mp hvar
    exact ⟨h1, h2⟩
  have hkeys : dkeys (dinsert var value st.assignment) =
      dkeys st.assignment ++ [var] := by
    rw [dinsert_of_not_mem value hfresh]
    unfold dkeys
    rw [List.map_append]
    rfl
  refine ⟨?_, ?_, ?_, ?_, ?_, ?_, ?_, ?_⟩
  · exact BoardDims_setCell st.board hinv.dims var.1 var.2 value
  · exact le9_setCell st.board hinv.le9 var.1 var.2 value hv9
  · exact valid_after_assign H V hH hV (set_variables 9 9 board0) st.board
      hinv.dims hinv.valid var hvar hg value hcons
  · exact DomsLE9_inference _ var value st.domains hinv.doms
  · show (dkeys (dinsert var value st.assignment)).Nodup
    rw [hkeys]
    refine List.Nodup.append hinv.keysNodup (List.nodup_singleton var) ?_
    intro a ha hb
    rw [List.mem_singleton] at hb
    subst hb
    exact hfresh ha
  · intro p hp
    rw [hkeys, List.mem_append] at hp
    rcases hp with hp | hp
    · exact hinv.keysSub p hp
    · rw [List.mem_singleton] at hp
      subst hp
      exact hvar
  · intro p hp
    rw [hkeys, List.mem_append] at hp
    show cell (setCell st.board var.1 var.2 value) p.1 p.2 ≠ 0
    rcases hp with hp | hp
    · have hpne : ¬ (var.1 = p.1 ∧ var.2 = p.2) := by
        rintro ⟨h1, h2⟩
        exact hfresh (by rw [pos_ext h1 h2]; exact hp)
      rw [cell_setCell_other st.board var.1 var.2 value p.1 p.2 hpne]
      exact hinv.assigned p hp
    · rw [List.mem_singleton] at hp
      subst hp
      rw [cell_setCell_same st.board p.1 p.2 value hinv.dims hg.1 hg.2]
      omega
  · intro p hp
    have hpne : ¬ (var.1 = p.1 ∧ var.2 = p.2) := by
      rintro ⟨h1, h2⟩
      exact hp (by rw [← pos_ext h1 h2]; exact hvar)
    show cell (setCell st.board var.1 var.2 value) p.1 p.2 = cell board0 p.1 p.2
    rw [cell_setCell_other st.board var.1 var.2 value p.1 p.2 hpne]
    exact hinv.frame p hp

theorem Inv_undo (board0 H V : Board) (st stPrev : SState)
    (hinvSt : Inv board0 st) (hinvPrev : Inv board0 stPrev) (var : Pos) (value : Nat)
    (hvar : var ∈ set_variables 9 9 board0) (hfresh : var ∉ dkeys st.assignment)
    (hasgPrev : stPrev.assignment = dinsert var value st.assignment) :
    ddel var stPrev.assignment = st.assignment ∧
    Inv board0 ⟨setCell stPrev.board var.1 var.2 0,
      backtrack_inference (set_constraints 9 9 H V (set_variables 9 9 board0)) var
        (prepare_inference (set_constraints 9 9 H V (set_variables 9 9 board0))
          st.domains var) stPrev.domains,
      ddel var stPrev.assignment⟩ := by
  have hdel : ddel var stPrev.assignment = st.assignment := by
    rw [hasgPrev, dinsert_of_not_mem value hfresh, ddel_append_single value hfresh]
  have hkeysPrev : dkeys stPrev.assignment = dkeys st.assignment ++ [var] := by
    rw [hasgPrev, dinsert_of_not_mem value hfresh]
    unfold dkeys
    rw [List.map_append]
    rfl
  refine ⟨hdel, ?_, ?_, ?_, ?_, ?_, ?_, ?_, ?_⟩
  · exact BoardDims_setCell stPrev.board hinvPrev.dims var.1 var.2 0
  · exact le9_setCell stPrev.board hinvPrev.le9 var.1 var.2 0 (by omega)
  · exact valid_setCell_zero stPrev.board hinvPrev.valid var.1 var.2
  · exact DomsLE9_backtrack_inference _ var _ stPrev.domains
      (DomsLE9_prepare _ var st.domains hinvSt.doms) hinvPrev.doms
  · show (dkeys (ddel var stPrev.assignment)).Nodup
    rw [hdel]
    exact hinvSt.keysNodup
  · show ∀ p ∈ dkeys (ddel var stPrev.assignment), p ∈ set_variables 9 9 board0
    rw [hdel]
    exact hinvSt.keysSub
  · show ∀ p ∈ dkeys (ddel var stPrev.assignment),
      cell (setCell stPrev.board var.1 var.2 0) p.1 p.2 ≠ 0
    rw [hdel]
    intro p hp
    have hpne : ¬ (var.1 = p.1 ∧ var.2 = p.2) := by
      rintro ⟨h1, h2⟩
      exact hfresh (by rw [pos_ext h1 h2]; exact hp)
    rw [cell_setCell_other stPrev.board var.1 var.2 0 p.1 p.2 hpne]
    refine hinvPrev.assigned p ?_
    rw [hkeysPrev, List.mem_append]
    exact Or.inl hp
  · intro p hp
    have hpne : ¬ (var.1 = p.1 ∧ var.2 = p.2) := by
      rintro ⟨h1, h2⟩
      exact hp (by rw [← pos_ext h1 h2]; exact hvar)
    show cell (setCell stPrev.board var.1 var.2 0) p.1 p.2 = cell board0 p.1 p.2
    rw [cell_setCell_other stPrev.board var.1 var.2 0 p.1 p.2 hpne]
    exact hinvPrev.frame p hp

theorem tryValuesWith_inv (board0 H V : Board) (hH : MarkerWF H) (hV : MarkerWF V)
    (recur : SState → Option (Option Board × SState)) (var : Pos)
    (hvar : var ∈ set_variables 9 9 board0)
    (hrec : ∀ st1 : SState, Inv board0 st1 →
      ∀ (out : Option Board) (st2 : SState), recur st1 = some (out, st2) →
        Inv board0 st2 ∧ (out = none → st2.assignment = st1.assignment) ∧
        ∀ sol : Board, out = some sol → sol = st2.board ∧
          (set_variables 9 9 board0).length = st2.assignment.length) :
    ∀ (values : List Nat) (st : SState), Inv board0 st →
      var ∉ dkeys st.assignment →
      (∀ v ∈ values, 1 ≤ v ∧ v ≤ 9) →
      ∀ (out : Option Board) (st2 : SState),
        tryValuesWith recur (set_constraints 9 9 H V (set_variables 9 9 board0)) var
          values st = some (out, st2) →
        Inv board0 st2 ∧ (out = none → st2.assignment = st.assignment) ∧
        ∀ sol : Board, out = some sol → sol = st2.board ∧
          (set_variables 9 9 board0).length = st2.assignment.length := by
  intro values
  induction values with
  | nil =>
    intro st hinv hfresh hvals out st2 heq
    unfold tryValuesWith at heq
    simp only [Option.some.injEq, Prod.mk.injEq] at heq
    obtain ⟨h1, h2⟩ := heq
    subst h2
    subst h1
    exact ⟨hinv, fun _ => rfl, fun sol hsol => Option.noConfusion hsol⟩
  | cons value rest ih =>
    intro st hinv hfresh hvals out st2 heq
    have hvrest : ∀ v ∈ rest, 1 ≤ v ∧ v ≤ 9 :=
      fun v hv => hvals v (List.mem_cons_of_mem _ hv)
    have hvv := hvals value (List.mem_cons_self value rest)
    unfold tryValuesWith at heq
    by_cases hcons : is_consistent (set_constraints 9 9 H V (set_variables 9 9 board0))
        st.board var value = true
    · rw [if_pos hcons] at heq
      have hInvA : Inv board0 ⟨setCell st.board var.1 var.2 value,
          (inference (set_constraints 9 9 H V (set_variables 9 9 board0)) var value
            st.domains).2,
          dinsert var value st.assignment⟩ :=
        Inv_assign board0 H V hH hV st hinv var hvar hfresh value hvv.1 hvv.2 hcons
      by_cases hinf : (inference (set_constraints 9 9 H V (set_variables 9 9 board0))
          var value st.domains).1 = true
      · rw [if_pos hinf] at heq
        cases hr : recur ⟨setCell st.board var.1 var.2 value,
            (inference (set_constraints 9 9 H V (set_variables 9 9 board0)) var value
              st.domains).2,
            dinsert var value st.assignment⟩ with
        | none =>
          rw [hr] at heq
          exact Option.noConfusion heq
        | some pr =>
          obtain ⟨out1, st1'⟩ := pr
          rw [hr] at heq
          obtain ⟨hinv1, hres1, hsol1⟩ := hrec _ hInvA out1 st1' hr
          cases out1 with
          | some sol0 =>
            have heq2 : (some (some sol0, st1') : Option (Option Board × SState)) =
                some (out, st2) := heq
            simp only [Option.some.injEq, Prod.mk.injEq] at heq2
            obtain ⟨h1, h2⟩ := heq2
            subst h2
            subst h1
            refine ⟨hinv1, fun hno => Option.noConfusion hno, ?_⟩
            intro sol hsol
            have hres := hsol1 sol0 rfl
            obtain rfl : sol0 = sol := Option.some.inj hsol
            exact hres
          | none =>
            have hasgPrev : st1'.assignment = dinsert var value st.assignment :=
              hres1 rfl
            obtain ⟨hdel, hInvU⟩ := Inv_undo board0 H V st st1' hinv hinv1 var value
              hvar hfresh hasgPrev
            have hfreshU : var ∉ dkeys (ddel var st1'.assignment) := by
              rw [hdel]
              exact hfresh
            have heq2 : tryValuesWith recur
                (set_constraints 9 9 H V (set_variables 9 9 board0)) var rest
                ⟨setCell st1'.board var.1 var.2 0,
                 backtrack_inference
                   (set_constraints 9 9 H V (set_variables 9 9 board0)) var
                   (prepare_inference
                     (set_constraints 9 9 H V (set_variables 9 9 board0))
                     st.domains var) st1'.domains,
                 ddel var st1'.assignment⟩ = some (out, st2) := heq
            obtain ⟨hi2, hr2, hs2⟩ := ih ⟨setCell st1'.board var.1 var.2 0,
              backtrack_inference
                (set_constraints 9 9 H V (set_variables 9 9 board0)) var
                (prepare_inference
                  (set_constraints 9 9 H V (set_variables 9 9 board0))
                  st.domains var) st1'.domains,
              ddel var st1'.assignment⟩ hInvU hfreshU hvrest out st2 heq2
            refine ⟨hi2, ?_, hs2⟩
            intro hno
            rw [hr2 hno]
            exact hdel
      · rw [if_neg hinf] at heq
        obtain ⟨hdel, hInvU⟩ := Inv_undo board0 H V st
          ⟨setCell st.board var.1 var.2 value,
           (inference (set_constraints 9 9 H V (set_variables 9 9 board0)) var value
             st.domains).2,
           dinsert var value st.assignment⟩ hinv hInvA var value hvar hfresh rfl
        have hfreshU : var ∉ dkeys (ddel var (dinsert var value st.assignment)) := by
          rw [show ddel var (dinsert var value st.assignment) = st.assignment from hdel]
          exact hfresh
        obtain ⟨hi2, hr2, hs2⟩ := ih ⟨setCell (setCell st.board var.1 var.2 value)
            var.1 var.2 0,
          backtrack_inference (set_constraints 9 9 H V (set_variables 9 9 board0)) var
            (prepare_inference (set_constraints 9 9 H V (set_variables 9 9 board0))
              st.domains var)
            (inference (set_constraints 9 9 H V (set_variables 9 9 board0)) var value
              st.domains).2,
          ddel var (dinsert var value st.assignment)⟩ hInvU hfreshU hvrest out st2 heq
        refine ⟨hi2, ?_, hs2⟩
        intro hno
        rw [hr2 hno]
        exact hdel
    · rw [if_neg hcons] at heq
      exact ih st hinv hfresh hvrest out st2 heq

theorem backtrackF_inv (board0 H V : Board) (hH : MarkerWF H) (hV : MarkerWF V) :
    ∀ (fuel : Nat) (st : SState), Inv board0 st →
      ∀ (out : Option Board) (st2 : SState),
        backtrackF (set_variables 9 9 board0)
          (set_constraints 9 9 H V (set_variables 9 9 board0)) fuel st =
          some (out, st2) →
        Inv board0 st2 ∧ (out = none → st2.assignment = st.assignment) ∧
        ∀ sol : Board, out = some sol → sol = st2.board ∧
          (set_variables 9 9 board0).length = st2.assignment.length := by
  intro fuel
  induction fuel with
  | zero =>
    intro st hinv out st2 heq
    exact Option.noConfusion heq
  | succ fuel ih =>
    intro st hinv out st2 heq
    unfold backtrackF at heq
    by_cases hdone : (set_variables 9 9 board0).length = st.assignment.length
    · rw [if_pos hdone] at heq
      simp only [Option.some.injEq, Prod.mk.injEq] at heq
      obtain ⟨h1, h2⟩ := heq
      subst h2
      subst h1
      refine ⟨hinv, fun hno => Option.noConfusion hno, ?_⟩
      intro sol hsol
      have hbs : st.board = sol := Option.some.inj hsol
      exact ⟨hbs.symm, hdone⟩
    · rw [if_neg hdone] at heq
      cases hsel : select_unassigned_variable (set_variables 9 9 board0) st.domains
          (set_constraints 9 9 H V (set_variables 9 9 board0)) st.assignment with
      | none =>
        rw [hsel] at heq
        exact Option.noConfusion heq
      | some var =>
        rw [hsel] at heq
        obtain ⟨hvmem, hvcon⟩ := select_mem _ st.domains _ st.assignment var hsel
        have hfresh : var ∉ dkeys st.assignment := by
          intro hmem
          have hb := (dcontains_eq_true_iff var st.assignment).mpr hmem
          rw [hvcon] at hb
          cases hb
        have hvals : ∀ v ∈ order_domain_values st.domains var, 1 ≤ v ∧ v ≤ 9 :=
          DomsLE9_lookupD hinv.doms var
        exact tryValuesWith_inv board0 H V hH hV _ var hvmem
          (fun st1 hinv1 out1 st21 heq1 => ih st1 hinv1 out1 st21 heq1)
          (order_domain_values st.domains var) st hinv hfresh hvals out st2 heq

theorem nodup_subset_rev {l1 l2 : List Pos} (h1 : l1.Nodup) (h2 : l2.Nodup)
    (hsub : ∀ p ∈ l1, p ∈ l2) (hlen : l2.length ≤ l1.length) :
    ∀ p ∈ l2, p ∈ l1 := by
  have hsubF : l1.toFinset ⊆ l2.toFinset := by
    intro x hx
    rw [List.mem_toFinset] at hx ⊢
    exact hsub x hx
  have heqF : l1.toFinset = l2.toFinset := by
    refine Finset.eq_of_subset_of_card_le hsubF ?_
    rw [List.toFinset_card_of_nodup h1, List.toFinset_card_of_nodup h2]
    exact hlen
  intro p hp
  rw [← List.mem_toFinset, ← heqF, List.mem_toFinset] at hp
  exact hp

theorem cells_count_one (b : Board) (hvalid : ValidCells b) (hle9 : BoardLE9 b)
    (hnz : ∀ p : Pos, inGrid p → cell b p.1 p.2 ≠ 0)
    (f : Nat → Pos) (hf : ∀ t < 9, inGrid (f t))
    (hpeers : ∀ t1 < 9, ∀ t2 < 9, t1 ≠ t2 → peers (f t1) (f t2))
    (v : Nat) (hv1 : 1 ≤ v) (hv9 : v ≤ 9) :
    ((List.range 9).map fun t => cell b (f t).1 (f t).2).count v = 1 := by
  have hlen : ((List.range 9).map fun t => cell b (f t).1 (f t).2).length = 9 := by
    rw [List.length_map, List.length_range]
  have hmem9 : ∀ x ∈ (List.range 9).map fun t => cell b (f t).1 (f t).2,
      1 ≤ x ∧ x ≤ 9 := by
    intro x hx
    rw [List.mem_map] at hx
    obtain ⟨t, ht, rfl⟩ := hx
    rw [List.mem_range] at ht
    have hg := hf t ht
    have h0 := hnz (f t) hg
    have h9 := hle9 (f t).1 hg.1 (f t).2 hg.2
    exact ⟨by omega, h9⟩
  have hnd : ((List.range 9).map fun t => cell b (f t).1 (f t).2).Nodup := by
    refine List.Nodup.map_on ?_ (List.nodup_range 9)
    intro t1 ht1 t2 ht2 hft
    rw [List.mem_range] at ht1 ht2
    by_contra hne
    exact hvalid (f t1) ((mem_gridPositions (f t1)).mpr (hf t1 ht1))
      (f t2) ((mem_gridPositions (f t2)).mpr (hf t2 ht2))
      (hpeers t1 ht1 t2 ht2 hne)
      (hnz (f t1) (hf t1 ht1)) (hnz (f t2) (hf t2 ht2)) hft
  have hvmem : v ∈ (List.range 9).map fun t => cell b (f t).1 (f t).2 := by
    have hsubF : ((List.range 9).map fun t => cell b (f t).1 (f t).2).toFinset ⊆
        Finset.Icc 1 9 := by
      intro x hx
      rw [List.mem_toFinset] at hx
      rw [Finset.mem_Icc]
      exact hmem9 x hx
    have heqF : ((List.range 9).map fun t => cell b (f t).1 (f t).2).toFinset =
        Finset.Icc 1 9 := by
      refine Finset.eq_of_subset_of_card_le hsubF ?_
      rw [List.toFinset_card_of_nodup hnd, hlen, Nat.card_Icc]
    rw [← List.mem_toFinset, heqF, Finset.mem_Icc]
    exact ⟨hv1, hv9⟩
  exact List.count_eq_one_of_mem hnd hvmem

/-- C1 amended: the claim as stated is refuted by solve_allOnes_invalid: a
complete input board passes through unchecked, so a well-formed but
internally inconsistent input can come back as the "solved" board.  Amended
with the hypothesis that the pre-filled cells of the input are mutually
consistent (no two equal nonzero cells share a row, column or box): then
whenever the engine returns a board, that board is 9 by 9, contains only
values 1..9 with no zeros, and every row, every column and every 3 by 3
box contains each value 1 through 9 exactly once. -/
theorem solve_valid (board H V : Board) (hdims : BoardDims board)
    (hle9 : BoardLE9 board) (hH : MarkerWF H) (hV : MarkerWF V)
    (hvalid : ValidCells board) (sol : Board)
    (hsol : solve 9 9 board H V = some (some sol)) :
    BoardDims sol ∧
    (∀ r < 9, ∀ c < 9, 1 ≤ cell sol r c ∧ cell sol r c ≤ 9) ∧
    (∀ u < 9, ∀ v : Nat, 1 ≤ v → v ≤ 9 →
      (rowCells sol u).count v = 1 ∧ (colCells sol u).count v = 1 ∧
      (boxCells sol u).count v = 1) := by
  unfold solve at hsol
  rw [Option.map_eq_some'] at hsol
  obtain ⟨pr, hpr, hfst⟩ := hsol
  obtain ⟨out, st2⟩ := pr
  have hout : out = some sol := hfst
  subst hout
  have hinv0 : Inv board ⟨board,
      set_domain (set_constraints 9 9 H V (set_variables 9 9 board)) board
        (set_variables 9 9 board), []⟩ := by
    refine ⟨hdims, hle9, hvalid, ?_, ?_, ?_, ?_, ?_⟩
    · exact DomsLE9_set_domain _ board _
    · exact List.nodup_nil
    · intro p hp
      cases hp
    · intro p hp
      cases hp
    · intro p _
      rfl
  obtain ⟨hinv2, -, hsol2⟩ := backtrackF_inv board H V hH hV
    ((set_variables 9 9 board).length + 1) _ hinv0 (some sol) st2 hpr
  obtain ⟨hsb, hlen⟩ := hsol2 sol rfl
  subst hsb
  have hrev : ∀ p ∈ set_variables 9 9 board, p ∈ dkeys st2.assignment := by
    refine nodup_subset_rev hinv2.keysNodup (set_variables_nodup board)
      hinv2.keysSub ?_
    rw [dkeys_length, ← hlen]
  have hnz : ∀ p : Pos, inGrid p → cell st2.board p.1 p.2 ≠ 0 := by
    intro p hpg
    by_cases hpv : p ∈ set_variables 9 9 board
    · exact hinv2.assigned p (hrev p hpv)
    · rw [hinv2.frame p hpv]
      intro h0
      exact hpv ((mem_set_variables board p).mpr ⟨hpg.1, hpg.2, h0⟩)
  refine ⟨hinv2.dims, ?_, ?_⟩
  · intro r hr c hc
    have h1 : cell st2.board r c ≠ 0 := hnz (r, c) ⟨hr, hc⟩
    have h2 := hinv2.le9 r hr c hc
    exact ⟨by omega, h2⟩
  · intro u hu v hv1 hv9
    refine ⟨?_, ?_, ?_⟩
    · exact cells_count_one st2.board hinv2.valid hinv2.le9 hnz (fun c => (u, c))
        (fun t ht => ⟨hu, ht⟩)
        (fun t1 ht1 t2 ht2 hne =>
          ⟨⟨hu, ht1⟩, ⟨hu, ht2⟩, fun he => hne (congrArg Prod.snd he), Or.inl rfl⟩)
        v hv1 hv9
    · exact cells_count_one st2.board hinv2.valid hinv2.le9 hnz (fun r => (r, u))
        (fun t ht => ⟨ht, hu⟩)
        (fun t1 ht1 t2 ht2 hne =>
          ⟨⟨ht1, hu⟩, ⟨ht2, hu⟩, fun he => hne (congrArg Prod.fst he),
           Or.inr (Or.inl rfl)⟩)
        v hv1 hv9
    · refine cells_count_one st2.board hinv2.valid hinv2.le9 hnz
        (fun t => (u / 3 * 3 + t / 3, u % 3 * 3 + t % 3)) ?_ ?_ v hv1 hv9
      · intro t ht
        exact ⟨by show u / 3 * 3 + t / 3 < 9; omega,
          by show u % 3 * 3 + t % 3 < 9; omega⟩
      · intro t1 ht1 t2 ht2 hne
        refine ⟨⟨?_, ?_⟩, ⟨?_, ?_⟩, ?_, Or.inr (Or.inr ⟨?_, ?_⟩)⟩
        · show u / 3 * 3 + t1 / 3 < 9
          omega
        · show u % 3 * 3 + t1 % 3 < 9
          omega
        · show u / 3 * 3 + t2 / 3 < 9
          omega
        · show u % 3 * 3 + t2 % 3 < 9
          omega
        · intro he
          have h1 : u / 3 * 3 + t1 / 3 = u / 3 * 3 + t2 / 3 := congrArg Prod.fst he
          have h2 : u % 3 * 3 + t1 % 3 = u % 3 * 3 + t2 % 3 := congrArg Prod.snd he
          omega
        · show (u / 3 * 3 + t1 / 3) / 3 = (u / 3 * 3 + t2 / 3) / 3
          omega
        · show (u % 3 * 3 + t1 % 3) / 3 = (u % 3 * 3 + t2 % 3) / 3
          omega

set_option maxRecDepth 100000 in
/-- Witness for the amended C1: the latin-square board with its last cell
blanked out is a valid well-formed input, the engine solves it back to the
full latin square, and the theorem yields the exactly-once property of
that returned board. -/
theorem solve_valid_witness :
    BoardDims latinBoard ∧
    (∀ r < 9, ∀ c < 9, 1 ≤ cell latinBoard r c ∧ cell latinBoard r c ≤ 9) ∧
    (∀ u < 9, ∀ v : Nat, 1 ≤ v → v ≤ 9 →
      (rowCells latinBoard u).count v = 1 ∧ (colCells latinBoard u).count v = 1 ∧
      (boxCells latinBoard u).count v = 1) :=
  solve_valid (setCell latinBoard 8 8 0) M0 M0 (by decide) (by decide) (by decide)
    (by decide) (by decide) latinBoard (by decide)

/-! Claim C4: characterization of satisfy_constraint on the used range. -/

/-- C4: on candidate values 1..9 against neighbor values 0..9, the
consistency predicate returns True for an unassigned neighbor (0);
kind 1 holds iff the values differ by exactly one; kind 2 (the float
division max/min == 2) holds iff one value is exactly double the other;
kind 3 holds iff the values differ. -/
theorem satisfy_constraint_characterization (v w : Nat)
    (hv1 : 1 ≤ v) (_hv9 : v ≤ 9) (_hw : w ≤ 9) :
    (satisfy_constraint v w 1 = true ↔ (w = 0 ∨ w = v + 1 ∨ v = w + 1)) ∧
    (satisfy_constraint v w 2 = true ↔ (w = 0 ∨ w = 2 * v ∨ v = 2 * w)) ∧
    (satisfy_constraint v w 3 = true ↔ (w = 0 ∨ w ≠ v)) := by
  by_cases h0 : w = 0
  · subst h0
    refine ⟨?_, ?_, ?_⟩ <;> simp [satisfy_constraint]
  · refine ⟨?_, ?_, ?_⟩
    · show (if w = 0 then true else decide (((w : Int) - (v : Int)).natAbs = 1)) = true ↔ _
      rw [if_neg h0, decide_eq_true_eq, Int.natAbs_eq_iff]
      constructor
      · rintro (h | h)
        · right; left; omega
        · right; right; omega
      · rintro (h | h | h)
        · exact absurd h h0
        · left; omega
        · right; omega
    · show (if w = 0 then true
          else decide (((max w v : Nat) : ℚ) / ((min w v : Nat) : ℚ) = 2)) = true ↔ _
      rw [if_neg h0, decide_eq_true_eq]
      have hmin : ((min w v : Nat) : ℚ) ≠ 0 := Nat.cast_ne_zero.mpr (by omega)
      rw [div_eq_iff hmin]
      constructor
      · intro h
        have h2 : (max w v : Nat) = 2 * min w v := by exact_mod_cast h
        right; omega
      · rintro (h | h | h)
        · exact absurd h h0
        · have h2 : (max w v : Nat) = 2 * min w v := by omega
          exact_mod_cast h2
        · have h2 : (max w v : Nat) = 2 * min w v := by omega
          exact_mod_cast h2
    · show (if w = 0 then true else decide (¬ w = v)) = true ↔ _
      rw [if_neg h0, decide_eq_true_eq]
      constructor
      · intro h; right; exact h
      · rintro (h | h)
        · exact absurd h h0
        · exact h

/-- Witness for C4 at value 3, neighbor 6, black dot. -/
theorem satisfy_constraint_characterization_witness :
    satisfy_constraint 3 6 2 = true :=
  ((satisfy_constraint_characterization 3 6 (by decide) (by decide) (by decide)).2.1).mpr
    (Or.inr (Or.inl (by decide)))

/-! Claim C9: determinism of the pipeline. -/

/-- C9: the pipeline is a pure function of the input: two runs on
identical board and marker grids give identical results (the shallow
embedding threads all state explicitly; the Python original has no other
input dependence, its dict iteration being insertion ordered). -/
theorem solve_deterministic (b1 b2 H1 H2 V1 V2 : Board)
    (hb : b1 = b2) (hH : H1 = H2) (hV : V1 = V2) :
    solve 9 9 b1 H1 V1 = solve 9 9 b2 H2 V2 := by
  subst hb; subst hH; subst hV; rfl

/-- Witness for C9 on a concrete input. -/
theorem solve_deterministic_witness :
    solve 9 9 boardC7 M0 M0 = solve 9 9 boardC7 M0 M0 :=
  solve_deterministic boardC7 boardC7 M0 M0 M0 M0 rfl rfl rfl

/-! Claim C1 (counterexample) and claims C2, C3. -/

/-- Counterexample to C1 as stated: the all-ones board is a well-formed
input (entries 0..9, markers 0..2), the engine returns it as a solved
board (no cell is 0, so the variable list is empty and backtrack returns
the board at once), yet row 0 does not contain the value 1 exactly once. -/
theorem solve_allOnes_invalid :
    BoardDims allOnes ∧ BoardLE9 allOnes ∧ MarkerWF M0 ∧
    solve 9 9 allOnes M0 M0 = some (some allOnes) ∧
    ¬ (rowCells allOnes 0).count 1 = 1 := by decide

set_option maxRecDepth 100000 in
/-- Counterexample to C2 as stated: boardC2 has the two pre-filled cells
(0,0) and (0,1) of row 0 both equal to 1, yet the engine returns a solved
board (the duplicate cells are not variables, so no constraint ever
examines them), not the None the claim requires. -/
theorem solve_row_duplicate_solved :
    cell boardC2 0 0 ≠ 0 ∧ cell boardC2 0 1 ≠ 0 ∧
    cell boardC2 0 0 = cell boardC2 0 1 ∧
    solve 9 9 boardC2 M0 M0 = some (some solC2) := by decide

/-- C2 amended: a conflict between two pre-filled cells is invisible to
the engine: a pre-filled (nonzero) cell is never a variable and the
constraint map has no entry for it, so no empty domain or failed
consistency check can arise from the pair during setup and the engine
does not necessarily yield None (solve_row_duplicate_solved exhibits a
returned board that retains such a duplicate). -/
theorem prefilled_cells_invisible (board H V : Board) (p : Pos)
    (hp : cell board p.1 p.2 ≠ 0) :
    p ∉ set_variables 9 9 board ∧
    dlookup p (set_constraints 9 9 H V (set_variables 9 9 board)) = none := by
  have h1 : p ∉ set_variables 9 9 board := fun hmem =>
    hp ((mem_set_variables board p).mp hmem).2.2
  refine ⟨h1, ?_⟩
  rw [dlookup_set_constraints]
  simp [h1]

/-- Witness for the amended C2 at boardC2 and its duplicated cell (0,1). -/
theorem prefilled_cells_invisible_witness :
    ((0, 1) : Pos) ∉ set_variables 9 9 boardC2 ∧
    dlookup (0, 1) (set_constraints 9 9 M0 M0 (set_variables 9 9 boardC2)) = none :=
  prefilled_cells_invisible boardC2 M0 M0 (0, 1) (by decide)

/-- Counterexample to C3 as stated: boardC3 is complete (no zeros) and
violates row distinctness at (0,0) and (0,1), yet the engine returns it
as the solution instead of reporting UnsolvableInstance. -/
theorem solve_complete_invalid_returned :
    (∀ r < 9, ∀ c < 9, cell boardC3 r c ≠ 0) ∧ ¬ ValidCells boardC3 ∧
    solve 9 9 boardC3 M0 M0 = some (some boardC3) := by decide

/-- C3 amended: on a complete input board (no zeros), even one violating
a constraint, the engine does not report UnsolvableInstance: the variable
list is empty, so backtrack immediately returns the input board itself,
unchanged (in particular the already-complete board is not mutated). -/
theorem solve_complete_board (board H V : Board)
    (hfull : ∀ r < 9, ∀ c < 9, cell board r c ≠ 0)
    (_hviol : ¬ ValidCells board) :
    solve 9 9 board H V = some (some board) := by
  have hv : set_variables 9 9 board = [] := set_variables_eq_nil board hfull
  unfold solve
  rw [hv]
  rfl

/-- Witness for the amended C3 at the complete invalid board boardC3. -/
theorem solve_complete_board_witness :
    solve 9 9 boardC3 M0 M0 = some (some boardC3) :=
  solve_complete_board boardC3 M0 M0 (by decide) (by decide)

end Kropki
